import Mathlib

/-!
# ThreadPool: a shallow embedding of `threadpool.h`

The pool of `threadpool.h` is embedded as an explicit state machine.  Every
thread (the `N` workers, the threads calling `enqueue`, the thread running the
destructor) has a program counter naming the source line it is about to
execute; one step of the machine executes one such line for one thread.  The
mutex `mtx_`, the queue `tasks_` and the flag `exit_` are fields of the state,
the condition variable is the set of workers whose program counter is `wait`.

Conventions
* the queue is homogeneous over `TaskI`; the values of all C++ types passing
  through the pool are drawn from one type `V` for arguments, one type `ρ` for
  results and one type `ε` for thrown exceptions;
* a callable is a function from the argument values to an `Outcome`; it is
  stored in the task as it is, only the arguments distinguish an owned value
  from a reference to a variable of the caller;
* a promise's shared state is named by a natural number, allocated when the
  `PackagedTask` is built; `shared` lists the shared states that are ready;
* `execute` is one step: the callable runs and the promise is set without any
  other thread in between;
* `pushed`, `popped` and `executed` are history variables: they record what
  happened and are never read by the program;
* allocation failure in `std::make_unique` and the destruction of the members
  after the destructor's body are outside the model.
-/

namespace ThreadPool

variable {V ρ ε : Type}

/-! ## Tasks -/

/-- What invoking a callable does: return a value, throw, or have undefined behaviour. -/
inductive Outcome (ρ ε : Type) where
  | ret (v : ρ)
  | raise (e : ε)
  | undefined

/-- One element of `std::tuple<Args...>`.  `enqueue` takes forwarding references
`Args&&...`: for an rvalue argument `Args` is deduced as `T` and the tuple owns a
`T` moved from the argument; for an lvalue argument `Args` is deduced as `T&` and
the tuple element is a reference to the caller's variable. -/
inductive Arg (V : Type) where
  | val (v : V)
  | ref (addr : Nat)

/-- Exceptions that can leave `PackagedTask::execute`: the callable's own, or the
`std::future_error` of `std::promise::set_value` on a satisfied promise. -/
inductive Exn (ε : Type) where
  | user (e : ε)
  | promise_already_satisfied

/-- Content of a promise's shared state once it is ready. -/
inductive Resolution (ρ ε : Type) where
  | value (v : ρ)
  | error (e : ε)

/-- The shared states that are ready, most recent first. -/
abbrev Shared (ρ ε : Type) := List (Nat × Resolution ρ ε)

/-- The members of `internal::PackagedTask<Fn, Args...>` (threadpool.h:41-43). -/
structure PackagedTask (V ρ ε : Type) where
  fn_ : List V → Outcome ρ ε
  prom_ : Nat
  args_ : List (Arg V)

/-- Reading one tuple element when the callable is applied. -/
def Arg.load (mem : List V) : Arg V → Option V
  | .val v => some v
  | .ref addr => mem[addr]?

/-- The argument values `std::apply` passes to the callable; `none` when a
referenced variable no longer exists. -/
def loadArgs (mem : List V) : List (Arg V) → Option (List V)
  | [] => some []
  | a :: rest =>
    match a.load mem, loadArgs mem rest with
    | some v, some vs => some (v :: vs)
    | _, _ => none

/-- What `std::future::get` would find: the content of shared state `id`, if ready. -/
def future_get (sh : Shared ρ ε) (id : Nat) : Option (Resolution ρ ε) :=
  sh.lookup id

/-- The call `std::promise::set_value`: stores the value, or fails (`none`) when the shared
state is already ready. -/
def set_value (sh : Shared ρ ε) (id : Nat) (v : ρ) : Option (Shared ρ ε) :=
  match sh.lookup id with
  | none => some ((id, .value v) :: sh)
  | some _ => none

/-- The method `PackagedTask::execute` (threadpool.h:30-33):
`prom_.set_value(std::apply(fn_, std::move(args_)))`, with no handler around it. -/
def PackagedTask.execute (t : PackagedTask V ρ ε) (mem : List V) (sh : Shared ρ ε) :
    Outcome (Shared ρ ε) (Exn ε) :=
  match loadArgs mem t.args_ with
  | none => .undefined
  | some a =>
    match t.fn_ a with
    | .undefined => .undefined
    | .raise e => .raise (.user e)
    | .ret v =>
      match set_value sh t.prom_ v with
      | some sh' => .ret sh'
      | none => .raise .promise_already_satisfied

/-! ## Threads -/

/-- Identity of a thread, as recorded by the mutex. -/
inductive Tid where
  | worker (i : Nat)
  | caller (j : Nat)
  | owner
  deriving DecidableEq

/-- Program counter of a worker, the lambda of threadpool.h:64-77. -/
inductive WorkerPc (V ρ ε : Type) where
  /-- line 67, or inside `condition_.wait` after a wakeup: about to acquire `mtx_` -/
  | lock
  /-- lines 68-73: holds `mtx_`, about to evaluate the loop condition -/
  | check
  /-- line 69: blocked in `condition_.wait(lck)`, `mtx_` released -/
  | wait
  /-- line 74: the head of the queue has been popped, `lck.unlock()` is next -/
  | unlock (t : PackagedTask V ρ ε)
  /-- line 75: `task->execute()` is next -/
  | exec (t : PackagedTask V ρ ε)
  /-- line 71: returned from the lambda -/
  | done

/-- Program counter of a thread calling `enqueue` (threadpool.h:81-93). -/
inductive CallerPc (V ρ ε : Type) where
  /-- not inside `enqueue` -/
  | idle
  /-- line 88: task built and future taken, about to acquire `mtx_` -/
  | lock (t : PackagedTask V ρ ε)
  /-- line 89: holds `mtx_`, `tasks_.push` is next -/
  | push (t : PackagedTask V ρ ε)
  /-- line 90: end of the `lock_guard` scope -/
  | unlock
  /-- line 91: `condition_.notify_one()` is next -/
  | notify

/-- Program counter of the destructor (threadpool.h:95-104). -/
inductive DtorPc where
  /-- the destructor has not been called -/
  | idle
  /-- line 98: about to acquire `mtx_` -/
  | lock
  /-- line 99: holds `mtx_`, `exit_ = true` is next -/
  | set
  /-- line 100: end of the `lock_guard` scope -/
  | unlock
  /-- line 101: `condition_.notify_all()` is next -/
  | notify
  /-- line 103: `workers_[k].join()` is next -/
  | join (k : Nat)
  /-- the destructor has returned -/
  | done
  deriving DecidableEq

/-- Whether a worker at this program counter owns `mtx_` according to the source. -/
def WorkerPc.holds : WorkerPc V ρ ε → Bool
  | .check => true
  | .unlock _ => true
  | _ => false

/-- Whether a caller at this program counter owns `mtx_` according to the source. -/
def CallerPc.holds : CallerPc V ρ ε → Bool
  | .push _ => true
  | .unlock => true
  | _ => false

/-- Whether the destructor at this program counter owns `mtx_` according to the source. -/
def DtorPc.holds : DtorPc → Bool
  | .set => true
  | .unlock => true
  | _ => false

/-- The task a worker owns through its local `task`. -/
def WorkerPc.task : WorkerPc V ρ ε → List (PackagedTask V ρ ε)
  | .unlock t => [t]
  | .exec t => [t]
  | _ => []

/-- The task a caller owns through its local `task`. -/
def CallerPc.task : CallerPc V ρ ε → List (PackagedTask V ρ ε)
  | .lock t => [t]
  | .push t => [t]
  | _ => []

/-- Whether the worker is blocked on `condition_`. -/
def WorkerPc.isWait : WorkerPc V ρ ε → Bool
  | .wait => true
  | _ => false

/-- Whether the worker has returned. -/
def WorkerPc.isDone : WorkerPc V ρ ε → Bool
  | .done => true
  | _ => false

/-! ## The pool -/

/-- The members of `ThreadPool<N>` (threadpool.h:107-112), the threads using it, the
caller's variables and the promises' shared states. -/
structure State (V ρ ε : Type) where
  /-- the owner of `mtx_` -/
  mtx_ : Option Tid
  /-- the queue, front first -/
  tasks_ : List (PackagedTask V ρ ε)
  exit_ : Bool
  /-- one program counter per element of `std::array<std::thread, N>` -/
  workers_ : List (WorkerPc V ρ ε)
  callers : List (CallerPc V ρ ε)
  dtor : DtorPc
  /-- the callers' variables that tasks may refer to -/
  mem : List V
  /-- the next fresh shared-state name -/
  next : Nat
  shared : Shared ρ ε
  /-- set when an exception has escaped a thread function (`std::terminate`) -/
  crashed : Option (Exn ε)
  /-- history: tasks in the order of `tasks_.push` -/
  pushed : List (PackagedTask V ρ ε)
  /-- history: tasks in the order of `tasks_.pop` -/
  popped : List (PackagedTask V ρ ε)
  /-- history: tasks whose `execute` returned, with the argument values the callable received -/
  executed : List (PackagedTask V ρ ε × List V)

/-- The call `condition_.notify_one()`: unblocks the waiting worker `w`; does nothing when no
worker waits. -/
def notify_one (ws : List (WorkerPc V ρ ε)) (w : Nat) : Option (List (WorkerPc V ρ ε)) :=
  match ws[w]? with
  | some .wait => some (ws.set w .lock)
  | _ => if ws.all (fun pc => !pc.isWait) then some ws else none

/-- The call `condition_.notify_all()`: unblocks every waiting worker. -/
def notify_all (ws : List (WorkerPc V ρ ε)) : List (WorkerPc V ρ ε) :=
  ws.map (fun pc => match pc with
    | .wait => .lock
    | pc => pc)

/-- One step of worker `i` (threadpool.h:65-76). -/
def workerStep (s : State V ρ ε) (i : Nat) : Option (State V ρ ε) :=
  match s.workers_[i]? with
  | some .lock =>
    if s.mtx_ = none then
      some { s with mtx_ := some (.worker i), workers_ := s.workers_.set i .check }
    else none
  | some .check =>
    match s.tasks_ with
    | [] =>
      if s.exit_ then some { s with mtx_ := none, workers_ := s.workers_.set i .done }
      else some { s with mtx_ := none, workers_ := s.workers_.set i .wait }
    | t :: rest =>
      some { s with tasks_ := rest, popped := s.popped ++ [t],
                    workers_ := s.workers_.set i (.unlock t) }
  | some (.unlock t) =>
    some { s with mtx_ := none, workers_ := s.workers_.set i (.exec t) }
  | some (.exec t) =>
    match t.execute s.mem s.shared with
    | .ret sh =>
      some { s with shared := sh,
                    executed := s.executed ++ [(t, (loadArgs s.mem t.args_).getD [])],
                    workers_ := s.workers_.set i .lock }
    | .raise e => some { s with crashed := some e }
    | .undefined => none
  | _ => none

/-- A spurious wakeup of worker `i` out of `condition_.wait`. -/
def wakeStep (s : State V ρ ε) (i : Nat) : Option (State V ρ ε) :=
  match s.workers_[i]? with
  | some .wait => some { s with workers_ := s.workers_.set i .lock }
  | _ => none

/-- Caller `j` enters `enqueue(fn, args...)`: lines 85-86 build the task and take its future. -/
def callStep (s : State V ρ ε) (j : Nat) (fn : List V → Outcome ρ ε) (args : List (Arg V)) :
    Option (State V ρ ε) :=
  match s.callers[j]? with
  | some .idle =>
    some { s with callers := s.callers.set j (.lock ⟨fn, s.next, args⟩), next := s.next + 1 }
  | _ => none

/-- One step of caller `j` inside `enqueue` (threadpool.h:87-92); `w` is the worker that
`notify_one` unblocks. -/
def callerStep (s : State V ρ ε) (j w : Nat) : Option (State V ρ ε) :=
  match s.callers[j]? with
  | some (.lock t) =>
    if s.mtx_ = none then
      some { s with mtx_ := some (.caller j), callers := s.callers.set j (.push t) }
    else none
  | some (.push t) =>
    some { s with tasks_ := s.tasks_ ++ [t], pushed := s.pushed ++ [t],
                  callers := s.callers.set j .unlock }
  | some .unlock =>
    some { s with mtx_ := none, callers := s.callers.set j .notify }
  | some .notify =>
    match notify_one s.workers_ w with
    | some ws => some { s with workers_ := ws, callers := s.callers.set j .idle }
    | none => none
  | _ => none

/-- One step of the destructor (threadpool.h:95-104). -/
def dtorStep (s : State V ρ ε) : Option (State V ρ ε) :=
  match s.dtor with
  | .idle => some { s with dtor := .lock }
  | .lock =>
    if s.mtx_ = none then some { s with mtx_ := some .owner, dtor := .set } else none
  | .set => some { s with exit_ := true, dtor := .unlock }
  | .unlock => some { s with mtx_ := none, dtor := .notify }
  | .notify => some { s with workers_ := notify_all s.workers_, dtor := .join 0 }
  | .join k =>
    match s.workers_[k]? with
    | none => some { s with dtor := .done }
    | some .done => some { s with dtor := .join (k + 1) }
    | some _ => none
  | .done => none

/-- What the scheduler and the environment may do next. -/
inductive Label (V ρ ε : Type) where
  | worker (i : Nat)
  | wake (i : Nat)
  | call (j : Nat) (fn : List V → Outcome ρ ε) (args : List (Arg V))
  | caller (j w : Nat)
  | store (addr : Nat) (v : V)
  | dtor

/-- One step of the whole system.  Nothing runs after `std::terminate`. -/
def step (s : State V ρ ε) (l : Label V ρ ε) : Option (State V ρ ε) :=
  match s.crashed with
  | some _ => none
  | none =>
    match l with
    | .worker i => workerStep s i
    | .wake i => wakeStep s i
    | .call j fn args => callStep s j fn args
    | .caller j w => callerStep s j w
    | .store addr v => some { s with mem := s.mem.set addr v }
    | .dtor => dtorStep s

/-- A schedule, executed from left to right. -/
def run (s : State V ρ ε) : List (Label V ρ ε) → Option (State V ρ ε)
  | [] => some s
  | l :: ls =>
    match step s l with
    | some s' => run s' ls
    | none => none

/-- The pool right after a successful construction of `ThreadPool<N>`, used by `C` caller
threads whose variables are `mem`. -/
def init (N C : Nat) (mem : List V) : State V ρ ε :=
  { mtx_ := none, tasks_ := [], exit_ := false,
    workers_ := List.replicate N .lock,
    callers := List.replicate C .idle,
    dtor := .idle, mem := mem, next := 0, shared := [], crashed := none,
    pushed := [], popped := [], executed := [] }

/-- States the pool can be in. -/
inductive Reachable (N C : Nat) (mem : List V) : State V ρ ε → Prop where
  | init : Reachable N C mem (init N C mem)
  | step {s s' : State V ρ ε} (l : Label V ρ ε) :
      Reachable N C mem s → step s l = some s' → Reachable N C mem s'

/-- A whole call `enqueue(fn, args...)` by caller `j` with no other thread running in
between: the schedule of lines 85-92. -/
def enqueueSchedule (j w : Nat) (fn : List V → Outcome ρ ε) (args : List (Arg V)) :
    List (Label V ρ ε) :=
  [.call j fn args, .caller j w, .caller j w, .caller j w, .caller j w]

/-- The call `enqueue(fn, args...)` run to completion; the future returned is the one of
shared state `s.next`. -/
def enqueue (s : State V ρ ε) (j w : Nat) (fn : List V → Outcome ρ ε) (args : List (Arg V)) :
    Option (State V ρ ε) :=
  run s (enqueueSchedule j w fn args)

/-! ## Invariants -/

/-- Mutual exclusion: a thread's program counter is one at which the source holds the lock
exactly when the mutex records that thread as its owner. -/
structure MutexInv (s : State V ρ ε) : Prop where
  w : ∀ i pc, s.workers_[i]? = some pc → (pc.holds = true ↔ s.mtx_ = some (.worker i))
  c : ∀ j pc, s.callers[j]? = some pc → (pc.holds = true ↔ s.mtx_ = some (.caller j))
  d : s.dtor.holds = true ↔ s.mtx_ = some .owner

/-- The tasks owned by workers: popped from the queue, `execute` not yet returned. -/
def heldTasks (s : State V ρ ε) : List (PackagedTask V ρ ε) :=
  s.workers_.flatMap WorkerPc.task

/-- The tasks owned by callers: built by `enqueue`, not yet pushed. -/
def inflight (s : State V ρ ε) : List (PackagedTask V ρ ε) :=
  s.callers.flatMap CallerPc.task

/-- Conservation of tasks: the queue is what was pushed minus what was popped, in order, and
what was popped is either executed or owned by a worker. -/
structure QueueInv (s : State V ρ ε) : Prop where
  fifo : s.popped ++ s.tasks_ = s.pushed
  held : (s.executed.map Prod.fst ++ heldTasks s).Perm s.popped

/-- Every task that exists has its own promise. -/
structure IdInv (s : State V ρ ε) : Prop where
  nodup : ((inflight s ++ s.pushed).map PackagedTask.prom_).Nodup
  fresh : ∀ t ∈ inflight s ++ s.pushed, t.prom_ < s.next

/-- The ready shared states are those of the executed tasks, and each holds the value the
callable returned. -/
structure SharedInv (s : State V ρ ε) : Prop where
  keys : ∀ id r, (id, r) ∈ s.shared → id ∈ s.executed.map (fun x => x.1.prom_)
  vals : ∀ t a, (t, a) ∈ s.executed →
    ∃ v, t.fn_ a = .ret v ∧ future_get s.shared t.prom_ = some (.value v)
  args : ∀ t a, (t, a) ∈ s.executed → ∃ m, loadArgs m t.args_ = some a

/-- Whether the destructor is past line 99. -/
def DtorPc.flagged : DtorPc → Bool
  | .idle => false
  | .lock => false
  | .set => false
  | _ => true

/-- Whether the destructor is past line 101. -/
def DtorPc.notified : DtorPc → Bool
  | .join _ => true
  | .done => true
  | _ => false

/-- The shutdown protocol: `exit_` is set exactly from line 99 on, a worker returns only
after that, and no worker is blocked on the condition once `notify_all` has run. -/
structure ExitInv (s : State V ρ ε) : Prop where
  flag : s.exit_ = s.dtor.flagged
  done : ∀ pc ∈ s.workers_, pc.isDone = true → s.exit_ = true
  nowait : s.dtor.notified = true → ∀ pc ∈ s.workers_, pc.isWait = false

/-- The owner recorded by the mutex is a thread that exists and is at a line of the
critical section. -/
def OwnerInv (s : State V ρ ε) : Prop :=
  match s.mtx_ with
  | none => True
  | some (.worker i) => ∃ pc, s.workers_[i]? = some pc ∧ pc.holds = true
  | some (.caller j) => ∃ pc, s.callers[j]? = some pc ∧ pc.holds = true
  | some .owner => s.dtor.holds = true

/-- The join loop: the workers before the one being joined have returned, and all have once
the destructor has returned. -/
structure JoinInv (s : State V ρ ε) : Prop where
  joined : ∀ k, s.dtor = .join k →
    ∀ (i : Nat) (pc : WorkerPc V ρ ε), i < k → s.workers_[i]? = some pc → pc.isDone = true
  all : s.dtor = .done →
    ∀ (i : Nat) (pc : WorkerPc V ρ ε), s.workers_[i]? = some pc → pc.isDone = true

/-- With a single worker the tasks are executed in the order they were popped. -/
def OneWorkerInv (s : State V ρ ε) : Prop :=
  s.workers_.length = 1 → s.executed.map Prod.fst ++ heldTasks s = s.popped

/-- With a single caller thread the k-th call to `enqueue` is the k-th push. -/
def OneCallerInv (s : State V ρ ε) : Prop :=
  s.callers.length = 1 →
    (s.pushed ++ inflight s).map PackagedTask.prom_ = List.range s.next

/-- All the invariants of a pool with `N` workers. -/
structure Inv (N : Nat) (s : State V ρ ε) : Prop where
  size : s.workers_.length = N
  mutex : MutexInv s
  owner : OwnerInv s
  queue : QueueInv s
  ids : IdInv s
  shared : SharedInv s
  exit : ExitInv s
  join : JoinInv s
  oneWorker : OneWorkerInv s
  oneCaller : OneCallerInv s

/-! ## The transitions, one constructor per source line -/

/-- The transitions `step` can take, spelled out one by one. -/
inductive Trans : State V ρ ε → Label V ρ ε → State V ρ ε → Prop where
  | wLock (s : State V ρ ε) (i : Nat) (hpc : s.workers_[i]? = some .lock) (hm : s.mtx_ = none) :
      Trans s (.worker i) { s with mtx_ := some (.worker i), workers_ := s.workers_.set i .check }
  | wExit (s : State V ρ ε) (i : Nat) (hpc : s.workers_[i]? = some .check)
      (hq : s.tasks_ = []) (he : s.exit_ = true) :
      Trans s (.worker i) { s with mtx_ := none, workers_ := s.workers_.set i .done }
  | wWait (s : State V ρ ε) (i : Nat) (hpc : s.workers_[i]? = some .check)
      (hq : s.tasks_ = []) (he : s.exit_ = false) :
      Trans s (.worker i) { s with mtx_ := none, workers_ := s.workers_.set i .wait }
  | wPop (s : State V ρ ε) (i : Nat) (t : PackagedTask V ρ ε) (rest : List (PackagedTask V ρ ε))
      (hpc : s.workers_[i]? = some .check) (hq : s.tasks_ = t :: rest) :
      Trans s (.worker i) { s with tasks_ := rest, popped := s.popped ++ [t],
                                   workers_ := s.workers_.set i (.unlock t) }
  | wUnlock (s : State V ρ ε) (i : Nat) (t : PackagedTask V ρ ε)
      (hpc : s.workers_[i]? = some (.unlock t)) :
      Trans s (.worker i) { s with mtx_ := none, workers_ := s.workers_.set i (.exec t) }
  | wExec (s : State V ρ ε) (i : Nat) (t : PackagedTask V ρ ε) (sh : Shared ρ ε)
      (hpc : s.workers_[i]? = some (.exec t)) (hx : t.execute s.mem s.shared = .ret sh) :
      Trans s (.worker i) { s with shared := sh,
                                   executed := s.executed ++ [(t, (loadArgs s.mem t.args_).getD [])],
                                   workers_ := s.workers_.set i .lock }
  | wCrash (s : State V ρ ε) (i : Nat) (t : PackagedTask V ρ ε) (e : Exn ε)
      (hpc : s.workers_[i]? = some (.exec t)) (hx : t.execute s.mem s.shared = .raise e) :
      Trans s (.worker i) { s with crashed := some e }
  | wake (s : State V ρ ε) (i : Nat) (hpc : s.workers_[i]? = some .wait) :
      Trans s (.wake i) { s with workers_ := s.workers_.set i .lock }
  | call (s : State V ρ ε) (j : Nat) (fn : List V → Outcome ρ ε) (args : List (Arg V))
      (hpc : s.callers[j]? = some .idle) :
      Trans s (.call j fn args) { s with callers := s.callers.set j (.lock ⟨fn, s.next, args⟩),
                                         next := s.next + 1 }
  | cLock (s : State V ρ ε) (j : Nat) {w : Nat} (t : PackagedTask V ρ ε)
      (hpc : s.callers[j]? = some (.lock t)) (hm : s.mtx_ = none) :
      Trans s (.caller j w) { s with mtx_ := some (.caller j), callers := s.callers.set j (.push t) }
  | cPush (s : State V ρ ε) (j : Nat) {w : Nat} (t : PackagedTask V ρ ε)
      (hpc : s.callers[j]? = some (.push t)) :
      Trans s (.caller j w) { s with tasks_ := s.tasks_ ++ [t], pushed := s.pushed ++ [t],
                                     callers := s.callers.set j .unlock }
  | cUnlock (s : State V ρ ε) (j : Nat) {w : Nat} (hpc : s.callers[j]? = some .unlock) :
      Trans s (.caller j w) { s with mtx_ := none, callers := s.callers.set j .notify }
  | cNotify (s : State V ρ ε) (j w : Nat) (hpc : s.callers[j]? = some .notify)
      (hw : s.workers_[w]? = some .wait) :
      Trans s (.caller j w) { s with workers_ := s.workers_.set w .lock, callers := s.callers.set j .idle }
  | cNotifyNone (s : State V ρ ε) (j : Nat) {w : Nat} (hpc : s.callers[j]? = some .notify)
      (hw : ∀ pc ∈ s.workers_, pc.isWait = false) :
      Trans s (.caller j w) { s with workers_ := s.workers_, callers := s.callers.set j .idle }
  | store (s : State V ρ ε) (addr : Nat) (v : V) :
      Trans s (.store addr v) { s with mem := s.mem.set addr v }
  | dCall (s : State V ρ ε) (hpc : s.dtor = .idle) :
      Trans s .dtor { s with dtor := .lock }
  | dLock (s : State V ρ ε) (hpc : s.dtor = .lock) (hm : s.mtx_ = none) :
      Trans s .dtor { s with mtx_ := some .owner, dtor := .set }
  | dSet (s : State V ρ ε) (hpc : s.dtor = .set) :
      Trans s .dtor { s with exit_ := true, dtor := .unlock }
  | dUnlock (s : State V ρ ε) (hpc : s.dtor = .unlock) :
      Trans s .dtor { s with mtx_ := none, dtor := .notify }
  | dNotify (s : State V ρ ε) (hpc : s.dtor = .notify) :
      Trans s .dtor { s with workers_ := notify_all s.workers_, dtor := .join 0 }
  | dJoin (s : State V ρ ε) (k : Nat) (hpc : s.dtor = .join k)
      (hw : s.workers_[k]? = some .done) :
      Trans s .dtor { s with dtor := .join (k + 1) }
  | dDone (s : State V ρ ε) (k : Nat) (hpc : s.dtor = .join k) (hw : s.workers_[k]? = none) :
      Trans s .dtor { s with dtor := .done }


/-! ## Who takes a step -/

/-- The thread that takes the step; a store to a caller's variable is not a step of the pool. -/
def Label.tid : Label V ρ ε → Option Tid
  | .worker i => some (.worker i)
  | .wake i => some (.worker i)
  | .call j _ _ => some (.caller j)
  | .caller j _ => some (.caller j)
  | .store _ _ => none
  | .dtor => some .owner

/-- Steps of the pool's own threads during destruction: the workers and the destructor. -/
def Label.isPool : Label V ρ ε → Bool
  | .worker _ => true
  | .wake _ => true
  | .dtor => true
  | _ => false

/-- Steps that the code itself takes during destruction: as `isPool`, without the spurious
wakeups, which the library allows but does not promise. -/
def Label.isForced : Label V ρ ε → Bool
  | .worker _ => true
  | .dtor => true
  | _ => false

/-! ## The constructor -/

/-- Outcome of `internal::make_workers`: the array, or the exception of the first
`std::thread` constructor that failed together with the number of threads started before. -/
inductive Spawn (V ρ ε : Type) where
  | ok (workers : List (WorkerPc V ρ ε))
  | thrown (started : Nat)

/-- The function `make_workers_impl` (threadpool.h:46-50): the elements of the braced list are
constructed from left to right; `canStart I` tells whether `std::thread(value)` succeeds for
element `I`. -/
def make_workers_impl (canStart : Nat → Bool) :
    List Nat → List (WorkerPc V ρ ε) → Spawn V ρ ε
  | [], acc => .ok acc
  | I :: rest, acc =>
    if canStart I then make_workers_impl canStart rest (acc ++ [.lock])
    else .thrown acc.length

/-- The function `make_workers<N>` (threadpool.h:52-56), over `std::make_index_sequence<N>`. -/
def make_workers (N : Nat) (canStart : Nat → Bool) : Spawn V ρ ε :=
  make_workers_impl canStart (List.range N) []

/-- Outcome of the constructor `ThreadPool<N>::ThreadPool()`. -/
inductive Construction (V ρ ε : Type) where
  /-- the pool exists -/
  | ok (s : State V ρ ε)
  /-- the exception reached the creator and no thread of the pool is running -/
  | thrown
  /-- the process ended in `std::terminate` -/
  | terminated

/-- The constructor (threadpool.h:62-78).  There is no handler: when a `std::thread`
constructor throws, the `std::thread` objects already built are destroyed by stack
unwinding, and the destructor of a joinable `std::thread` calls `std::terminate`. -/
def construct (N C : Nat) (mem : List V) (canStart : Nat → Bool) : Construction V ρ ε :=
  match (make_workers N canStart : Spawn V ρ ε) with
  | .ok ws => .ok { (init N C mem : State V ρ ε) with workers_ := ws }
  | .thrown 0 => .thrown
  | .thrown (_ + 1) => .terminated

/-- The schedule of the destructor run without interruption on a pool whose `N` workers
have all returned. -/
def destroySchedule (N : Nat) : List (Label V ρ ε) :=
  List.replicate (N + 6) .dtor

/-! ## The program of example.cpp -/

/-- The values example.cpp passes to tasks: an `int`, or a `std::unique_ptr<int>` (null or
owning an `int`). -/
inductive ExVal where
  | int (i : Int)
  | uptr (p : Option Int)

/-- The least value of `int`. -/
def INT_MIN : Int := -2147483648

/-- The greatest value of `int`. -/
def INT_MAX : Int := 2147483647

/-- The lambda `[](int i) -> int {return i * i;}` (example.cpp:14); signed overflow is
undefined. -/
def squareFn : List ExVal → Outcome Int String
  | [.int i] => if INT_MIN ≤ i * i ∧ i * i ≤ INT_MAX then .ret (i * i) else .undefined
  | _ => .undefined

/-- The function `sink` (example.cpp:4-7): `return *p;`. -/
def sink : List ExVal → Outcome Int String
  | [.uptr (some v)] => .ret v
  | _ => .undefined

/-- The schedule of one loop iteration of worker `i` that finds a task: lock, pop, unlock,
execute. -/
def workerRound (i : Nat) : List (Label V ρ ε) :=
  [.worker i, .worker i, .worker i, .worker i]

/-- The function `main` of example.cpp up to the two `get()`: both calls to `enqueue`, then
worker 0 and worker 1 each take one task. -/
def exampleSchedule : List (Label ExVal Int String) :=
  enqueueSchedule 0 0 squareFn [.val (.int 4)] ++
  enqueueSchedule 0 0 sink [.val (.uptr (some 42))] ++
  workerRound 0 ++ workerRound 1

/-- The state `main` of example.cpp reaches under `exampleSchedule`. -/
def exampleState : State ExVal Int String :=
  (run (init 4 1 []) exampleSchedule).getD (init 4 1 [])

/-- A callable that throws: `[](int) -> int { throw std::runtime_error("boom"); }`. -/
def throwFn : List ExVal → Outcome Int String
  | _ => .raise "boom"

/-- The callable `[](int v) -> int { return v; }`. -/
def readFn : List ExVal → Outcome Int String
  | [.int v] => .ret v
  | _ => .undefined

/-- One worker, one caller: the caller submits `throwFn` with 1, the worker runs it. -/
def throwSchedule : List (Label ExVal Int String) :=
  enqueueSchedule 0 0 throwFn [.val (.int 1)] ++ workerRound 0

/-- One worker, one caller with a variable `x` at address 0: the caller calls
`enqueue(readFn, x)`, then assigns `x = v1`, then the worker runs the task. -/
def lvalueSchedule (v1 : Int) : List (Label ExVal Int String) :=
  enqueueSchedule 0 0 readFn [.ref 0] ++ [.store 0 (.int v1)] ++ workerRound 0

/-- The destructor up to and including the unlock of line 100. -/
def flagSchedule : List (Label V ρ ε) :=
  [.dtor, .dtor, .dtor, .dtor]

/-- A pool of one worker whose destructor has set `exit_` and released the mutex. -/
def lateState : State ExVal Int String :=
  (run (init 1 1 []) flagSchedule).getD (init 1 1 [])

/-- Several calls of `enqueue` by caller `j`, one after the other. -/
def enqueueAll (j : Nat) : List ((List V → Outcome ρ ε) × List (Arg V)) → List (Label V ρ ε)
  | [] => []
  | c :: rest => enqueueSchedule j 0 c.1 c.2 ++ enqueueAll j rest

/-- One worker, one caller: two tasks are submitted, the worker runs the first and pops
the second. -/
def fifoSchedule : List (Label ExVal Int String) :=
  enqueueSchedule 0 0 squareFn [.val (.int 4)] ++
  enqueueSchedule 0 0 sink [.val (.uptr (some 42))] ++
  workerRound 0 ++ [.worker 0, .worker 0]

/-- The state reached under `fifoSchedule`. -/
def fifoState : State ExVal Int String :=
  (run (init 1 1 []) fifoSchedule).getD (init 1 1 [])

/-- Two workers, one caller: two tasks are submitted, worker 0 pops the first and unlocks,
worker 1 acquires the mutex. -/
def overlapSchedule : List (Label ExVal Int String) :=
  enqueueSchedule 0 0 squareFn [.val (.int 4)] ++
  enqueueSchedule 0 0 sink [.val (.uptr (some 42))] ++
  [.worker 0, .worker 0, .worker 0, .worker 1]

/-- The state reached under `overlapSchedule`. -/
def overlapState : State ExVal Int String :=
  (run (init 2 1 []) overlapSchedule).getD (init 2 1 [])

/-- Two workers, one caller: three tasks are submitted, worker 0 runs the first, worker 1 pops
the second and unlocks. -/
def sharingSchedule : List (Label ExVal Int String) :=
  enqueueSchedule 0 0 squareFn [.val (.int 4)] ++
  enqueueSchedule 0 0 sink [.val (.uptr (some 42))] ++
  enqueueSchedule 0 0 squareFn [.val (.int 5)] ++
  workerRound 0 ++ [.worker 1, .worker 1, .worker 1]

/-- The state reached under `sharingSchedule`. -/
def sharingState : State ExVal Int String :=
  (run (init 2 1 []) sharingSchedule).getD (init 2 1 [])

/-- As `lvalueSchedule`, with the argument passed as an rvalue holding `v0`:
`enqueue(readFn, int(x))`. -/
def rvalueSchedule (v0 v1 : Int) : List (Label ExVal Int String) :=
  enqueueSchedule 0 0 readFn [.val (.int v0)] ++ [.store 0 (.int v1)] ++ workerRound 0

/-! ## Destruction -/

/-- Every task a worker owns or the queue holds has a callable that returns normally on the
arguments stored with it. -/
def TasksReturn (s : State V ρ ε) : Prop :=
  ∀ t ∈ heldTasks s ++ s.tasks_, ∃ a v, loadArgs s.mem t.args_ = some a ∧ t.fn_ a = .ret v

/-- What holds from line 99 on while only the pool's own threads run: the flag is set, no
caller is inside the critical section, and once a worker has returned the queue is empty. -/
structure DrainInv (s : State V ρ ε) : Prop where
  flag : s.exit_ = true
  quiet : ∀ (j : Nat) (pc : CallerPc V ρ ε), s.callers[j]? = some pc → pc.holds = false
  drained : ∀ pc ∈ s.workers_, pc.isDone = true → s.tasks_ = []

/-- An upper bound on the number of steps a worker still takes before it looks at the queue
again or returns. -/
def WorkerPc.weight : WorkerPc V ρ ε → Nat
  | .done => 0
  | .check => 1
  | .lock => 2
  | .wait => 3
  | .exec _ => 3
  | .unlock _ => 4

/-- An upper bound on the number of steps the destructor still takes, joining `n` workers. -/
def DtorPc.weight (n : Nat) : DtorPc → Nat
  | .idle => n + 6
  | .lock => n + 5
  | .set => n + 4
  | .unlock => n + 3
  | .notify => n + 2
  | .join k => n - k + 1
  | .done => 0

/-- An upper bound on the number of steps the pool's threads still take once `exit_` is
set. -/
def stepsLeft (s : State V ρ ε) : Nat :=
  s.dtor.weight s.workers_.length + (s.workers_.map WorkerPc.weight).sum + 4 * s.tasks_.length

/-- Two workers, one caller: two tasks are submitted, then the destructor is called and is
about to execute line 99. -/
def drainSchedule : List (Label ExVal Int String) :=
  enqueueSchedule 0 0 squareFn [.val (.int 4)] ++
  enqueueSchedule 0 0 sink [.val (.uptr (some 42))] ++
  [.dtor, .dtor]

/-- The state reached under `drainSchedule`. -/
def drainState : State ExVal Int String :=
  (run (init 2 1 []) drainSchedule).getD (init 2 1 [])

/-- The state `drainState` after line 99. -/
def drainState' : State ExVal Int String :=
  (step drainState .dtor).getD drainState

/-- A schedule of the pool's threads from `drainState'` to the return of the destructor:
the destructor unlocks and notifies, each worker runs one task, finds the queue empty and
returns, and the destructor joins both. -/
def drainRun : List (Label ExVal Int String) :=
  [.dtor, .dtor] ++ workerRound 0 ++ workerRound 1 ++
  [.worker 0, .worker 0, .worker 1, .worker 1, .dtor, .dtor, .dtor]

/-- The state reached from `drainState'` under `drainRun`. -/
def drainedState : State ExVal Int String :=
  (run drainState' drainRun).getD drainState'

theorem workerStep_trans {s s' : State V ρ ε} {i : Nat} (h : workerStep s i = some s') :
    Trans s (.worker i) s' := by
  unfold workerStep at h
  split at h
  · split at h
    · cases h; exact Trans.wLock s i ‹_› ‹_›
    · cases h
  · split at h
    · split at h
      · cases h; exact Trans.wExit s i ‹_› ‹_› ‹_›
      · cases h; exact Trans.wWait s i ‹_› ‹_› (by simpa using ‹¬ s.exit_ = true›)
    · cases h; exact Trans.wPop s i _ _ ‹_› ‹_›
  · cases h; exact Trans.wUnlock s i _ ‹_›
  · split at h
    · cases h; exact Trans.wExec s i _ _ ‹_› ‹_›
    · cases h; exact Trans.wCrash s i _ _ ‹_› ‹_›
    · cases h
  · cases h

theorem callerStep_trans {s s' : State V ρ ε} {j w : Nat} (h : callerStep s j w = some s') :
    Trans s (.caller j w) s' := by
  unfold callerStep at h
  split at h
  · split at h
    · cases h; exact Trans.cLock s j _ ‹_› ‹_›
    · cases h
  · cases h; exact Trans.cPush s j _ ‹_›
  · cases h; exact Trans.cUnlock s j ‹_›
  · split at h
    · cases h
      rename_i hn
      unfold notify_one at hn
      split at hn
      · cases hn; exact Trans.cNotify s j w ‹_› ‹_›
      · split at hn
        · cases hn
          refine Trans.cNotifyNone s j ‹_› ?_
          intro pc hpc
          have := List.all_eq_true.mp ‹_› pc hpc
          simpa using this
        · cases hn
    · cases h
  · cases h

theorem dtorStep_trans {s s' : State V ρ ε} (h : dtorStep s = some s') :
    Trans s .dtor s' := by
  unfold dtorStep at h
  split at h
  · cases h; exact Trans.dCall s ‹_›
  · split at h
    · cases h; exact Trans.dLock s ‹_› ‹_›
    · cases h
  · cases h; exact Trans.dSet s ‹_›
  · cases h; exact Trans.dUnlock s ‹_›
  · cases h; exact Trans.dNotify s ‹_›
  · split at h
    · cases h; exact Trans.dDone s _ ‹_› ‹_›
    · cases h; exact Trans.dJoin s _ ‹_› ‹_›
    · cases h
  · cases h

/-- Every step is one of the listed transitions, taken by a process that has not terminated. -/
theorem step_trans {s s' : State V ρ ε} {l : Label V ρ ε} (h : step s l = some s') :
    s.crashed = none ∧ Trans s l s' := by
  unfold step at h
  split at h
  · cases h
  · refine ⟨‹_›, ?_⟩
    cases l with
    | worker i => exact workerStep_trans h
    | wake i =>
      simp only [wakeStep] at h
      split at h
      · cases h; exact Trans.wake s i ‹_›
      · cases h
    | call j fn args =>
      simp only [callStep] at h
      split at h
      · cases h; exact Trans.call s j fn args ‹_›
      · cases h
    | caller j w => exact callerStep_trans h
    | store addr v => cases h; exact Trans.store s addr v
    | dtor => exact dtorStep_trans h

theorem notify_all_get (ws : List (WorkerPc V ρ ε))
    (i : Nat) (pc : WorkerPc V ρ ε) (hi : (notify_all ws)[i]? = some pc) :
    (ws[i]? = some pc ∧ pc.isWait = false) ∨ (ws[i]? = some .wait ∧ pc = .lock) := by
  unfold notify_all at hi
  rw [List.getElem?_map] at hi
  cases hw : ws[i]? with
  | none => simp [hw] at hi
  | some pc0 =>
    simp [hw] at hi
    cases pc0 <;> simp at hi <;> subst hi <;> simp [WorkerPc.isWait]

theorem get_set_cases {α : Type} {l : List α} {i k : Nat} {x y : α}
    (h : (l.set i x)[k]? = some y) :
    (k = i ∧ y = x) ∨ (k ≠ i ∧ i ≠ k ∧ l[k]? = some y) := by
  rw [List.getElem?_set] at h
  by_cases hik : i = k
  · subst hik
    left
    split at h
    · split at h
      · simp at h; exact ⟨rfl, h.symm⟩
      · cases h
    · contradiction
  · right
    rw [if_neg hik] at h
    exact ⟨fun e => hik e.symm, hik, h⟩

theorem flatMap_set_perm {α β : Type} (f : α → List β) {l : List α} {i : Nat} {x : α} (y : α)
    (h : l[i]? = some x) : (f x ++ (l.set i y).flatMap f).Perm (f y ++ l.flatMap f) := by
  induction l generalizing i with
  | nil => simp at h
  | cons a l ih =>
    cases i with
    | zero =>
      simp at h; subst h
      simp only [List.set_cons_zero, List.flatMap_cons]
      rw [← List.append_assoc, ← List.append_assoc]
      exact List.Perm.append_right _ List.perm_append_comm
    | succ i =>
      simp at h
      simp only [List.set_cons_succ, List.flatMap_cons]
      have := ih h
      calc (f x ++ (f a ++ (l.set i y).flatMap f)).Perm (f a ++ (f x ++ (l.set i y).flatMap f)) := by
            rw [← List.append_assoc, ← List.append_assoc]
            exact List.Perm.append_right _ List.perm_append_comm
        _ |>.Perm (f a ++ (f y ++ l.flatMap f)) := List.Perm.append_left _ this
        _ |>.Perm (f y ++ (f a ++ l.flatMap f)) := by
            rw [← List.append_assoc, ← List.append_assoc]
            exact List.Perm.append_right _ List.perm_append_comm

theorem mutexInv_trans {s s' : State V ρ ε} (h : MutexInv s) {l : Label V ρ ε} (ht : Trans s l s') :
    MutexInv s' := by
  obtain ⟨hw, hc, hd⟩ := h
  cases ht with
  | wLock i hpc hm | wake i hpc =>
    have hmi := hw i _ hpc
    simp [WorkerPc.holds] at hmi
    refine ⟨?_, ?_, ?_⟩
    · intro k pc hk
      rcases get_set_cases hk with ⟨rfl, rfl⟩ | ⟨hne, hne', hk'⟩
      · simp_all [WorkerPc.holds]
      · have := hw k pc hk'; simp_all
    · intro k pc hk
      have := hc k pc hk; simp_all
    · simp_all
  | wExit i hpc hq he | wWait i hpc hq he | wUnlock i t hpc =>
    have hmi := (hw i _ hpc).mp rfl
    refine ⟨?_, ?_, ?_⟩
    · intro k pc hk
      rcases get_set_cases hk with ⟨rfl, rfl⟩ | ⟨hne, hne', hk'⟩
      · simp_all [WorkerPc.holds]
      · have := hw k pc hk'; simp_all
    · intro k pc hk
      have := hc k pc hk; simp_all
    · simp_all
  | wPop i t rest hpc hq | wExec i t sh hpc hx =>
    have hmi := hw i _ hpc
    refine ⟨?_, ?_, ?_⟩
    · intro k pc hk
      rcases get_set_cases hk with ⟨rfl, rfl⟩ | ⟨hne, hne', hk'⟩
      · simp_all [WorkerPc.holds]
      · have := hw k pc hk'; simp_all
    · intro k pc hk
      have := hc k pc hk; simp_all
    · simp_all
  | wCrash i t e hpc hx | store addr v => exact ⟨hw, hc, hd⟩
  | call j fn args hpc | cLock j t hpc hm | cPush j t hpc | cNotifyNone j hpc hw' =>
    have hmi := hc j _ hpc
    refine ⟨?_, ?_, ?_⟩
    · intro k pc hk
      have := hw k pc hk; simp_all
    · intro k pc hk
      rcases get_set_cases hk with ⟨rfl, rfl⟩ | ⟨hne, hne', hk'⟩
      · simp_all [CallerPc.holds]
      · have := hc k pc hk'; simp_all
    · simp_all
  | cUnlock j hpc =>
    have hmi := (hc j _ hpc).mp rfl
    refine ⟨?_, ?_, ?_⟩
    · intro k pc hk
      have := hw k pc hk; simp_all
    · intro k pc hk
      rcases get_set_cases hk with ⟨rfl, rfl⟩ | ⟨hne, hne', hk'⟩
      · simp_all [CallerPc.holds]
      · have := hc k pc hk'; simp_all
    · simp_all
  | cNotify j w hpc hw' =>
    have hmi := hc j _ hpc
    have hmw := hw w _ hw'
    refine ⟨?_, ?_, ?_⟩
    · intro k pc hk
      rcases get_set_cases hk with ⟨rfl, rfl⟩ | ⟨hne, hne', hk'⟩
      · simp_all [WorkerPc.holds]
      · have := hw k pc hk'; simp_all
    · intro k pc hk
      rcases get_set_cases hk with ⟨rfl, rfl⟩ | ⟨hne, hne', hk'⟩
      · simp_all [CallerPc.holds]
      · have := hc k pc hk'; simp_all
    · simp_all
  | dCall hpc | dLock hpc hm | dSet hpc | dUnlock hpc | dJoin k hpc hw' | dDone k hpc hw' =>
    refine ⟨?_, ?_, ?_⟩
    · intro k pc hk
      have := hw k pc hk; simp_all [DtorPc.holds]
    · intro k pc hk
      have := hc k pc hk; simp_all [DtorPc.holds]
    · simp_all [DtorPc.holds]
  | dNotify hpc =>
    refine ⟨?_, ?_, ?_⟩
    · intro k pc hk
      rcases notify_all_get _ k pc hk with ⟨hk', _⟩ | ⟨hk', rfl⟩
      · exact hw k pc hk'
      · have := hw k _ hk'; simp_all [WorkerPc.holds]
    · intro k pc hk
      have := hc k pc hk; simp_all [DtorPc.holds]
    · simp_all [DtorPc.holds]

theorem mem_set_cases {α : Type} {l : List α} {i : Nat} {x y : α}
    (h : y ∈ l.set i x) : y = x ∨ y ∈ l := by
  rcases List.mem_iff_getElem?.mp h with ⟨k, hk⟩
  rcases get_set_cases hk with ⟨_, rfl⟩ | ⟨_, _, hk'⟩
  · exact Or.inl rfl
  · exact Or.inr (List.mem_iff_getElem?.mpr ⟨k, hk'⟩)

theorem mem_notify_all {ws : List (WorkerPc V ρ ε)} {pc : WorkerPc V ρ ε}
    (h : pc ∈ notify_all ws) : pc.isWait = false ∧ (pc ∈ ws ∨ pc = .lock) := by
  rcases List.mem_iff_getElem?.mp h with ⟨k, hk⟩
  rcases notify_all_get ws k pc hk with ⟨hk', hw⟩ | ⟨hk', rfl⟩
  · exact ⟨hw, Or.inl (List.mem_iff_getElem?.mpr ⟨k, hk'⟩)⟩
  · exact ⟨rfl, Or.inr rfl⟩

theorem flatMap_task_notify_all (ws : List (WorkerPc V ρ ε)) :
    (notify_all ws).flatMap WorkerPc.task = ws.flatMap WorkerPc.task := by
  induction ws with
  | nil => rfl
  | cons pc ws ih =>
    have ih' : (List.map (fun pc : WorkerPc V ρ ε => match pc with
        | .wait => WorkerPc.lock
        | pc => pc) ws).flatMap WorkerPc.task = ws.flatMap WorkerPc.task := ih
    cases pc <;> simp [notify_all, WorkerPc.task, ih']

/-- Replacing a program counter by one owning the same tasks keeps the owned tasks. -/
theorem flatMap_set_same {α β : Type} (f : α → List β) {l : List α} {i : Nat} {x : α} (y : α)
    (h : l[i]? = some x) (hxy : f x = f y) : ((l.set i y).flatMap f).Perm (l.flatMap f) := by
  have := flatMap_set_perm f y h
  rw [hxy] at this
  exact (List.perm_append_left_iff _).mp this

theorem exitInv_trans {s s' : State V ρ ε} (h : ExitInv s) {l : Label V ρ ε} (ht : Trans s l s') :
    ExitInv s' := by
  obtain ⟨hf, hd, hn⟩ := h
  cases ht with
  | wLock i hpc hm | wake i hpc | wPop i t rest hpc hq | wUnlock i t hpc
  | wExec i t sh hpc hx | cNotify j w hpc hw' =>
    refine ⟨hf, ?_, ?_⟩
    · intro pc hmem hdone
      rcases mem_set_cases hmem with rfl | hmem'
      · simp [WorkerPc.isDone] at hdone
      · exact hd pc hmem' hdone
    · intro hnot pc hmem
      rcases mem_set_cases hmem with rfl | hmem'
      · rfl
      · exact hn hnot pc hmem'
  | wExit i hpc hq he =>
    refine ⟨hf, ?_, ?_⟩
    · intro pc hmem hdone
      exact he
    · intro hnot pc hmem
      rcases mem_set_cases hmem with rfl | hmem'
      · rfl
      · exact hn hnot pc hmem'
  | wWait i hpc hq he =>
    refine ⟨hf, ?_, ?_⟩
    · intro pc hmem hdone
      rcases mem_set_cases hmem with rfl | hmem'
      · simp [WorkerPc.isDone] at hdone
      · exact hd pc hmem' hdone
    · intro hnot pc hmem
      exfalso
      have h1 : s.dtor.flagged = false := by rw [← hf]; exact he
      have h2 : s.dtor.notified = true := hnot
      cases hdt : s.dtor <;> simp [hdt, DtorPc.flagged, DtorPc.notified] at h1 h2
  | wCrash i t e hpc hx | store addr v | call j fn args hpc | cLock j t hpc hm
  | cPush j t hpc | cUnlock j hpc | cNotifyNone j hpc hw' => exact ⟨hf, hd, hn⟩
  | dCall hpc | dLock hpc hm =>
    refine ⟨?_, hd, ?_⟩
    · show s.exit_ = _
      rw [hf, hpc]; rfl
    · intro hnot; simp [DtorPc.notified] at hnot
  | dSet hpc =>
    refine ⟨rfl, fun _ _ _ => rfl, ?_⟩
    intro hnot; simp [DtorPc.notified] at hnot
  | dUnlock hpc =>
    refine ⟨?_, hd, ?_⟩
    · show s.exit_ = _
      rw [hf, hpc]; rfl
    · intro hnot; simp [DtorPc.notified] at hnot
  | dNotify hpc =>
    refine ⟨?_, ?_, ?_⟩
    · show s.exit_ = _
      rw [hf, hpc]; rfl
    · intro pc hmem hdone
      rcases (mem_notify_all hmem).2 with hmem' | rfl
      · exact hd pc hmem' hdone
      · simp [WorkerPc.isDone] at hdone
    · intro _ pc hmem
      exact (mem_notify_all hmem).1
  | dJoin k hpc hw' | dDone k hpc hw' =>
    refine ⟨?_, hd, ?_⟩
    · show s.exit_ = _
      rw [hf, hpc]; rfl
    · intro _
      exact hn (by rw [hpc]; rfl)

theorem queueInv_trans {s s' : State V ρ ε} (h : QueueInv s) {l : Label V ρ ε} (ht : Trans s l s') :
    QueueInv s' := by
  obtain ⟨hf, hh⟩ := h
  unfold heldTasks at hh
  cases ht with
  | wLock i hpc hm | wake i hpc | wExit i hpc hq he | wWait i hpc hq he
  | cNotify j i hpc' hpc =>
    refine ⟨hf, ?_⟩
    exact ((List.perm_append_left_iff _).mpr (flatMap_set_same WorkerPc.task _ hpc (by rfl))).trans hh
  | wUnlock i t hpc =>
    refine ⟨hf, ?_⟩
    exact ((List.perm_append_left_iff _).mpr (flatMap_set_same WorkerPc.task _ hpc (by rfl))).trans hh
  | wPop i t rest hpc hq =>
    refine ⟨?_, ?_⟩
    · show (s.popped ++ [t]) ++ rest = s.pushed
      rw [← hf, hq]; simp
    · show (s.executed.map Prod.fst ++ (s.workers_.set i (.unlock t)).flatMap WorkerPc.task).Perm
        (s.popped ++ [t])
      have h1 : ((s.workers_.set i (.unlock t)).flatMap WorkerPc.task).Perm
          (t :: s.workers_.flatMap WorkerPc.task) := by
        simpa [WorkerPc.task] using flatMap_set_perm WorkerPc.task (.unlock t) hpc
      refine ((List.perm_append_left_iff _).mpr h1).trans ?_
      refine List.perm_middle.trans ?_
      exact ((List.perm_cons t).mpr hh).trans (List.perm_append_singleton t _).symm
  | wExec i t sh hpc hx =>
    refine ⟨hf, ?_⟩
    show ((s.executed ++ [(t, _)]).map Prod.fst ++
      (s.workers_.set i .lock).flatMap WorkerPc.task).Perm s.popped
    have h1 : (t :: (s.workers_.set i .lock).flatMap WorkerPc.task).Perm
        (s.workers_.flatMap WorkerPc.task) := by
      simpa [WorkerPc.task] using flatMap_set_perm WorkerPc.task .lock hpc
    refine List.Perm.trans ?_ hh
    simp only [List.map_append, List.map_cons, List.map_nil, List.append_assoc,
      List.singleton_append]
    exact (List.perm_append_left_iff _).mpr h1
  | wCrash i t e hpc hx | store addr v | call j fn args hpc | cLock j t hpc hm
  | cUnlock j hpc | cNotifyNone j hpc hw' | dCall hpc | dLock hpc hm | dSet hpc
  | dUnlock hpc | dJoin k hpc hw' | dDone k hpc hw' => exact ⟨hf, hh⟩
  | cPush j t hpc =>
    refine ⟨?_, hh⟩
    show s.popped ++ (s.tasks_ ++ [t]) = s.pushed ++ [t]
    rw [← hf, List.append_assoc]
  | dNotify hpc =>
    refine ⟨hf, ?_⟩
    show (s.executed.map Prod.fst ++ (notify_all s.workers_).flatMap WorkerPc.task).Perm s.popped
    rw [flatMap_task_notify_all]
    exact hh

/-- When `execute` returns: the arguments could be read, the callable returned a value, the
shared state was not ready, and the value has been stored in it. -/
theorem execute_ret {t : PackagedTask V ρ ε} {mem : List V} {sh sh' : Shared ρ ε}
    (h : t.execute mem sh = .ret sh') :
    ∃ a v, loadArgs mem t.args_ = some a ∧ t.fn_ a = .ret v ∧ sh.lookup t.prom_ = none ∧
      sh' = (t.prom_, .value v) :: sh := by
  unfold PackagedTask.execute at h
  split at h
  · cases h
  · rename_i a ha
    split at h
    · cases h
    · cases h
    · rename_i v hv
      unfold set_value at h
      split at h
      · rename_i hl
        split at hl
        · cases hl
          cases h
          exact ⟨a, v, ha, hv, ‹_›, rfl⟩
        · cases hl
      · cases h

theorem lookup_mem {β : Type} {l : List (Nat × β)} {k : Nat} {b : β}
    (h : l.lookup k = some b) : (k, b) ∈ l := by
  obtain ⟨l₁, l₂, rfl, _⟩ := List.lookup_eq_some_iff.mp h
  simp

theorem idInv_of_perm {s s' : State V ρ ε} (h : IdInv s)
    (hp : (inflight s' ++ s'.pushed).Perm (inflight s ++ s.pushed))
    (hn : s'.next = s.next) : IdInv s' := by
  refine ⟨?_, ?_⟩
  · exact ((hp.map PackagedTask.prom_).nodup_iff).mpr h.nodup
  · intro t ht
    rw [hn]
    exact h.fresh t (hp.mem_iff.mp ht)

theorem idInv_trans {s s' : State V ρ ε} (h : IdInv s) {l : Label V ρ ε} (ht : Trans s l s') : IdInv s' := by
  cases ht with
  | wLock i hpc hm | wake i hpc | wExit i hpc hq he | wWait i hpc hq he
  | wUnlock i t hpc | wPop i t rest hpc hq | wExec i t sh hpc hx | wCrash i t e hpc hx
  | store addr v | dCall hpc | dLock hpc hm | dSet hpc | dUnlock hpc | dNotify hpc
  | dJoin k hpc hw' | dDone k hpc hw' =>
    exact idInv_of_perm h (List.Perm.refl _) rfl
  | cLock j t hpc hm | cUnlock j hpc | cNotify j w hpc hw' | cNotifyNone j hpc hw' =>
    refine idInv_of_perm h ?_ rfl
    exact (List.perm_append_right_iff _).mpr (flatMap_set_same CallerPc.task _ hpc (by rfl))
  | cPush j t hpc =>
    refine idInv_of_perm h ?_ rfl
    show ((s.callers.set j .unlock).flatMap CallerPc.task ++ (s.pushed ++ [t])).Perm
      (s.callers.flatMap CallerPc.task ++ s.pushed)
    have h1 : (t :: (s.callers.set j .unlock).flatMap CallerPc.task).Perm
        (s.callers.flatMap CallerPc.task) := by
      simpa [CallerPc.task] using flatMap_set_perm CallerPc.task .unlock hpc
    refine List.Perm.trans ?_ ((List.perm_append_right_iff s.pushed).mpr h1)
    rw [← List.append_assoc]
    refine (List.perm_append_singleton t _).trans ?_
    simp
  | call j fn args hpc =>
    have h1 : ((s.callers.set j (.lock ⟨fn, s.next, args⟩)).flatMap CallerPc.task).Perm
        (⟨fn, s.next, args⟩ :: s.callers.flatMap CallerPc.task) := by
      simpa [CallerPc.task] using
        flatMap_set_perm CallerPc.task (.lock ⟨fn, s.next, args⟩) hpc
    have h2 : ((s.callers.set j (.lock ⟨fn, s.next, args⟩)).flatMap CallerPc.task
        ++ s.pushed).Perm (⟨fn, s.next, args⟩ :: (inflight s ++ s.pushed)) :=
      (List.perm_append_right_iff s.pushed).mpr h1
    refine ⟨?_, ?_⟩
    · refine ((h2.map PackagedTask.prom_).nodup_iff).mpr ?_
      rw [List.map_cons, List.nodup_cons]
      refine ⟨?_, h.nodup⟩
      intro hmem
      obtain ⟨t, ht, hid⟩ := List.mem_map.mp hmem
      have := h.fresh t ht
      simp only at hid
      omega
    · intro t ht
      show t.prom_ < s.next + 1
      rcases List.mem_cons.mp (h2.mem_iff.mp ht) with rfl | ht'
      · exact Nat.lt_succ_self _
      · exact Nat.lt_succ_of_lt (h.fresh t ht')

theorem sharedInv_trans {s s' : State V ρ ε} (h : SharedInv s) {l : Label V ρ ε} (ht : Trans s l s') :
    SharedInv s' := by
  cases ht with
  | wLock i hpc hm | wake i hpc | wExit i hpc hq he | wWait i hpc hq he
  | wUnlock i t hpc | wPop i t rest hpc hq | wCrash i t e hpc hx
  | store addr v | dCall hpc | dLock hpc hm | dSet hpc | dUnlock hpc | dNotify hpc
  | dJoin k hpc hw' | dDone k hpc hw' | cLock j t hpc hm | cUnlock j hpc
  | cNotify j w hpc hw' | cNotifyNone j hpc hw' | cPush j t hpc | call j fn args hpc =>
    exact ⟨h.keys, h.vals, h.args⟩
  | wExec i t sh hpc hx =>
    obtain ⟨a, v, ha, hv, hl, rfl⟩ := execute_ret hx
    refine ⟨?_, ?_, ?_⟩
    · intro id r hmem
      show id ∈ (s.executed ++ [(t, (loadArgs s.mem t.args_).getD [])]).map
        (fun x : PackagedTask V ρ ε × List V => x.1.prom_)
      rw [List.map_append, List.mem_append]
      rcases List.mem_cons.mp hmem with heq | hmem'
      · right
        cases heq
        simp
      · left
        exact h.keys id r hmem'
    · intro t' a' hmem
      have hmem' : (t', a') ∈ s.executed ++ [(t, (loadArgs s.mem t.args_).getD [])] := hmem
      show ∃ v', t'.fn_ a' = .ret v' ∧
        future_get ((t.prom_, Resolution.value v) :: s.shared) t'.prom_ = some (.value v')
      rcases List.mem_append.mp hmem' with hold | hnew
      · obtain ⟨v', hv', hg⟩ := h.vals t' a' hold
        refine ⟨v', hv', ?_⟩
        unfold future_get at hg ⊢
        rw [List.lookup_cons]
        have hne : (t'.prom_ == t.prom_) = false := by
          rw [beq_eq_false_iff_ne]
          intro heq
          rw [heq, hl] at hg
          cases hg
        rw [hne]
        exact hg
      · simp only [List.mem_singleton, Prod.mk.injEq] at hnew
        obtain ⟨rfl, rfl⟩ := hnew
        refine ⟨v, ?_, ?_⟩
        · rw [ha]; exact hv
        · unfold future_get
          simp [List.lookup_cons]
    · intro t' a' hmem
      have hmem' : (t', a') ∈ s.executed ++ [(t, (loadArgs s.mem t.args_).getD [])] := hmem
      rcases List.mem_append.mp hmem' with hold | hnew
      · exact h.args t' a' hold
      · simp only [List.mem_singleton, Prod.mk.injEq] at hnew
        obtain ⟨rfl, rfl⟩ := hnew
        exact ⟨s.mem, by rw [ha]; rfl⟩

theorem ownerInv_trans {s s' : State V ρ ε} (hm : MutexInv s) (h : OwnerInv s)
    {l : Label V ρ ε} (ht : Trans s l s') : OwnerInv s' := by
  obtain ⟨hw, hc, hd⟩ := hm
  unfold OwnerInv at h ⊢
  cases ht with
  | wLock i hpc hm =>
    exact ⟨.check, by simp [List.getElem?_set, (List.getElem?_eq_some.mp hpc).1], rfl⟩
  | wExit i hpc hq he | wWait i hpc hq he | wUnlock i t hpc | cUnlock j hpc | dUnlock hpc =>
    trivial
  | wPop i t rest hpc hq =>
    have hmi := (hw i _ hpc).mp rfl
    simp only [hmi]
    exact ⟨.unlock t, by simp [List.getElem?_set, (List.getElem?_eq_some.mp hpc).1], rfl⟩
  | wExec i t sh hpc hx | wake i hpc =>
    have hmi := hw i _ hpc
    simp only [WorkerPc.holds] at hmi
    cases hmx : s.mtx_ with
    | none => trivial
    | some tid =>
      rw [hmx] at h
      cases tid with
      | worker k =>
        obtain ⟨pc, hk, hh⟩ := h
        have hki : i ≠ k := by
          rintro rfl
          simp [hmx] at hmi
        exact ⟨pc, by simpa [List.getElem?_set, hki] using hk, hh⟩
      | caller k => exact h
      | owner => exact h
  | wCrash i t e hpc hx | store addr v => exact h
  | cNotify j w hpc hw' =>
    have hmi := hc j _ hpc
    have hmw := hw w _ hw'
    simp only [WorkerPc.holds] at hmw
    simp only [CallerPc.holds] at hmi
    cases hmx : s.mtx_ with
    | none => trivial
    | some tid =>
      rw [hmx] at h
      cases tid with
      | worker k =>
        obtain ⟨pc, hk, hh⟩ := h
        have hki : w ≠ k := by
          rintro rfl
          simp [hmx] at hmw
        exact ⟨pc, by simpa [List.getElem?_set, hki] using hk, hh⟩
      | caller k =>
        obtain ⟨pc, hk, hh⟩ := h
        have hki : j ≠ k := by
          rintro rfl
          simp [hmx] at hmi
        exact ⟨pc, by simpa [List.getElem?_set, hki] using hk, hh⟩
      | owner => exact h
  | call j fn args hpc | cNotifyNone j hpc hw' =>
    have hmi := hc j _ hpc
    simp only [CallerPc.holds] at hmi
    cases hmx : s.mtx_ with
    | none => trivial
    | some tid =>
      rw [hmx] at h
      cases tid with
      | worker k => exact h
      | caller k =>
        obtain ⟨pc, hk, hh⟩ := h
        have hki : j ≠ k := by
          rintro rfl
          simp [hmx] at hmi
        exact ⟨pc, by simpa [List.getElem?_set, hki] using hk, hh⟩
      | owner => exact h
  | cLock j t hpc hm =>
    exact ⟨.push t, by simp [List.getElem?_set, (List.getElem?_eq_some.mp hpc).1], rfl⟩
  | cPush j t hpc =>
    have hmi := (hc j _ hpc).mp rfl
    simp only [hmi]
    exact ⟨.unlock, by simp [List.getElem?_set, (List.getElem?_eq_some.mp hpc).1], rfl⟩
  | dCall hpc | dNotify hpc | dJoin k hpc hw' | dDone k hpc hw' =>
    have hmd : ¬ s.mtx_ = some .owner := by
      rw [← hd, hpc]; simp [DtorPc.holds]
    cases hmx : s.mtx_ with
    | none => trivial
    | some tid =>
      rw [hmx] at h
      cases tid with
      | worker k =>
        first
        | exact h
        | (obtain ⟨pc, hk, hh⟩ := h
           have hk' : (notify_all s.workers_)[k]? = some pc := by
             unfold notify_all
             rw [List.getElem?_map, hk]
             cases pc <;> simp [WorkerPc.holds] at hh ⊢
           exact ⟨pc, hk', hh⟩)
      | caller k => exact h
      | owner => exact absurd hmx hmd
  | dLock hpc hm => rfl
  | dSet hpc =>
    have hmi := hd.mp (by rw [hpc]; rfl)
    simp only [hmi]
    rfl

theorem one_set {α : Type} {l : List α} {i : Nat} {x : α} (y : α) (hl : l.length = 1)
    (h : l[i]? = some x) : l = [x] ∧ l.set i y = [y] := by
  match l, hl with
  | [a], _ =>
    cases i with
    | zero => simp at h; subst h; simp
    | succ i => simp at h

theorem joinInv_set {s s' : State V ρ ε} {i : Nat} {x y : WorkerPc V ρ ε} (h : JoinInv s)
    (hpc : s.workers_[i]? = some x) (hx : x.isDone = false) (hd : s'.dtor = s.dtor)
    (hw : s'.workers_ = s.workers_.set i y) : JoinInv s' := by
  refine ⟨?_, ?_⟩
  · intro k hk i' pc hlt hget
    rw [hd] at hk
    rw [hw] at hget
    rcases get_set_cases hget with ⟨rfl, rfl⟩ | ⟨_, _, hget'⟩
    · have := h.joined k hk i' x hlt hpc
      rw [hx] at this; cases this
    · exact h.joined k hk i' pc hlt hget'
  · intro hk i' pc hget
    rw [hd] at hk
    rw [hw] at hget
    rcases get_set_cases hget with ⟨rfl, rfl⟩ | ⟨_, _, hget'⟩
    · have := h.all hk i' x hpc
      rw [hx] at this; cases this
    · exact h.all hk i' pc hget'

theorem joinInv_same {s s' : State V ρ ε} (h : JoinInv s) (hd : s'.dtor = s.dtor)
    (hw : s'.workers_ = s.workers_) : JoinInv s' := by
  refine ⟨?_, ?_⟩
  · intro k hk
    rw [hd] at hk; rw [hw]
    exact h.joined k hk
  · intro hk
    rw [hd] at hk; rw [hw]
    exact h.all hk

theorem joinInv_trans {s s' : State V ρ ε} (h : JoinInv s) {l : Label V ρ ε} (ht : Trans s l s') : JoinInv s' := by
  cases ht with
  | wLock i hpc hm | wake i hpc | wExit i hpc hq he | wWait i hpc hq he
  | wUnlock i t hpc | wPop i t rest hpc hq | wExec i t sh hpc hx =>
    exact joinInv_set h hpc rfl rfl rfl
  | cNotify j w hpc hw' => exact joinInv_set h hw' rfl rfl rfl
  | wCrash i t e hpc hx | store addr v | call j fn args hpc | cLock j t hpc hm
  | cPush j t hpc | cUnlock j hpc | cNotifyNone j hpc hw' =>
    exact joinInv_same h rfl rfl
  | dCall hpc | dLock hpc hm | dSet hpc | dUnlock hpc =>
    refine ⟨?_, ?_⟩
    · intro k hk; cases hk
    · intro hk; cases hk
  | dNotify hpc =>
    refine ⟨?_, ?_⟩
    · intro k hk i pc hlt
      cases hk
      exact absurd hlt (Nat.not_lt_zero _)
    · intro hk; cases hk
  | dJoin k hpc hw' =>
    refine ⟨?_, ?_⟩
    · intro k' hk i pc hlt hget
      cases hk
      rcases Nat.lt_succ_iff_lt_or_eq.mp hlt with hlt' | rfl
      · exact h.joined k hpc i pc hlt' hget
      · have hget' : s.workers_[i]? = some pc := hget
        rw [hw'] at hget'
        cases hget'
        rfl
    · intro hk; cases hk
  | dDone k hpc hw' =>
    refine ⟨?_, ?_⟩
    · intro k' hk; cases hk
    · intro _ i pc hget
      have hget' : s.workers_[i]? = some pc := hget
      have hlt : i < k := by
        have h1 := (List.getElem?_eq_some.mp hget').1
        have h2 := List.getElem?_eq_none_iff.mp hw'
        omega
      exact h.joined k hpc i pc hlt hget'

theorem oneWorkerInv_trans {s s' : State V ρ ε} (h : OneWorkerInv s) {l : Label V ρ ε} (ht : Trans s l s') :
    OneWorkerInv s' := by
  unfold OneWorkerInv at h ⊢
  cases ht with
  | wLock i hpc hm =>
    intro hlen
    have hlen' : s.workers_.length = 1 := by simpa using hlen
    have h0 := h hlen'
    obtain ⟨h1, h2⟩ := one_set (WorkerPc.check : WorkerPc V ρ ε) hlen' hpc
    simp only [heldTasks, h1, List.flatMap_cons, List.flatMap_nil] at h0
    simp only [heldTasks, h2, List.flatMap_cons, List.flatMap_nil]
    simpa [WorkerPc.task] using h0
  | wake i hpc | cNotify j i hpc' hpc =>
    intro hlen
    have hlen' : s.workers_.length = 1 := by simpa using hlen
    have h0 := h hlen'
    obtain ⟨h1, h2⟩ := one_set (WorkerPc.lock : WorkerPc V ρ ε) hlen' hpc
    simp only [heldTasks, h1, List.flatMap_cons, List.flatMap_nil] at h0
    simp only [heldTasks, h2, List.flatMap_cons, List.flatMap_nil]
    simpa [WorkerPc.task] using h0
  | wExit i hpc hq he =>
    intro hlen
    have hlen' : s.workers_.length = 1 := by simpa using hlen
    have h0 := h hlen'
    obtain ⟨h1, h2⟩ := one_set (WorkerPc.done : WorkerPc V ρ ε) hlen' hpc
    simp only [heldTasks, h1, List.flatMap_cons, List.flatMap_nil] at h0
    simp only [heldTasks, h2, List.flatMap_cons, List.flatMap_nil]
    simpa [WorkerPc.task] using h0
  | wWait i hpc hq he =>
    intro hlen
    have hlen' : s.workers_.length = 1 := by simpa using hlen
    have h0 := h hlen'
    obtain ⟨h1, h2⟩ := one_set (WorkerPc.wait : WorkerPc V ρ ε) hlen' hpc
    simp only [heldTasks, h1, List.flatMap_cons, List.flatMap_nil] at h0
    simp only [heldTasks, h2, List.flatMap_cons, List.flatMap_nil]
    simpa [WorkerPc.task] using h0
  | wUnlock i t hpc =>
    intro hlen
    have hlen' : s.workers_.length = 1 := by simpa using hlen
    have h0 := h hlen'
    obtain ⟨h1, h2⟩ := one_set (WorkerPc.exec t) hlen' hpc
    simp only [heldTasks, h1, List.flatMap_cons, List.flatMap_nil] at h0
    simp only [heldTasks, h2, List.flatMap_cons, List.flatMap_nil]
    simpa [WorkerPc.task] using h0
  | wPop i t rest hpc hq =>
    intro hlen
    have hlen' : s.workers_.length = 1 := by simpa using hlen
    have h0 := h hlen'
    obtain ⟨h1, h2⟩ := one_set (WorkerPc.unlock t) hlen' hpc
    simp only [heldTasks, h1, List.flatMap_cons, List.flatMap_nil] at h0
    simp only [heldTasks, h2, List.flatMap_cons, List.flatMap_nil]
    simp only [WorkerPc.task, List.append_nil] at h0 ⊢
    rw [← h0]
  | wExec i t sh hpc hx =>
    intro hlen
    have hlen' : s.workers_.length = 1 := by simpa using hlen
    have h0 := h hlen'
    obtain ⟨h1, h2⟩ := one_set (WorkerPc.lock : WorkerPc V ρ ε) hlen' hpc
    simp only [heldTasks, h1, List.flatMap_cons, List.flatMap_nil] at h0
    simp only [heldTasks, h2, List.flatMap_cons, List.flatMap_nil]
    simp only [WorkerPc.task, List.append_nil] at h0 ⊢
    rw [← h0]
    simp
  | wCrash i t e hpc hx | store addr v | call j fn args hpc | cLock j t hpc hm
  | cPush j t hpc | cUnlock j hpc | cNotifyNone j hpc hw' | dCall hpc | dLock hpc hm
  | dSet hpc | dUnlock hpc | dJoin k hpc hw' | dDone k hpc hw' => exact h
  | dNotify hpc =>
    intro hlen
    have hlen' : s.workers_.length = 1 := by simpa [notify_all] using hlen
    have h0 := h hlen'
    simp only [heldTasks] at h0 ⊢
    rw [flatMap_task_notify_all]
    exact h0

theorem oneCallerInv_trans {s s' : State V ρ ε} (h : OneCallerInv s) {l : Label V ρ ε} (ht : Trans s l s') :
    OneCallerInv s' := by
  unfold OneCallerInv at h ⊢
  cases ht with
  | wLock i hpc hm | wake i hpc | wExit i hpc hq he | wWait i hpc hq he
  | wUnlock i t hpc | wPop i t rest hpc hq | wExec i t sh hpc hx | wCrash i t e hpc hx
  | store addr v | dCall hpc | dLock hpc hm | dSet hpc | dUnlock hpc | dNotify hpc
  | dJoin k hpc hw' | dDone k hpc hw' => exact h
  | call j fn args hpc =>
    intro hlen
    have hlen' : s.callers.length = 1 := by simpa using hlen
    have h0 := h hlen'
    obtain ⟨h1, h2⟩ := one_set (CallerPc.lock (⟨fn, s.next, args⟩ : PackagedTask V ρ ε)) hlen' hpc
    simp only [inflight, h1, List.flatMap_cons, List.flatMap_nil] at h0
    simp only [inflight, h2, List.flatMap_cons, List.flatMap_nil]
    simp only [CallerPc.task, List.append_nil] at h0 ⊢
    rw [List.range_succ, ← h0]
    simp
  | cLock j t hpc hm =>
    intro hlen
    have hlen' : s.callers.length = 1 := by simpa using hlen
    have h0 := h hlen'
    obtain ⟨h1, h2⟩ := one_set (CallerPc.push t) hlen' hpc
    simp only [inflight, h1, List.flatMap_cons, List.flatMap_nil] at h0
    simp only [inflight, h2, List.flatMap_cons, List.flatMap_nil]
    simpa [CallerPc.task] using h0
  | cPush j t hpc =>
    intro hlen
    have hlen' : s.callers.length = 1 := by simpa using hlen
    have h0 := h hlen'
    obtain ⟨h1, h2⟩ := one_set (CallerPc.unlock : CallerPc V ρ ε) hlen' hpc
    simp only [inflight, h1, List.flatMap_cons, List.flatMap_nil] at h0
    simp only [inflight, h2, List.flatMap_cons, List.flatMap_nil]
    simpa [CallerPc.task] using h0
  | cUnlock j hpc =>
    intro hlen
    have hlen' : s.callers.length = 1 := by simpa using hlen
    have h0 := h hlen'
    obtain ⟨h1, h2⟩ := one_set (CallerPc.notify : CallerPc V ρ ε) hlen' hpc
    simp only [inflight, h1, List.flatMap_cons, List.flatMap_nil] at h0
    simp only [inflight, h2, List.flatMap_cons, List.flatMap_nil]
    simpa [CallerPc.task] using h0
  | cNotify j w hpc hw' | cNotifyNone j hpc hw' =>
    intro hlen
    have hlen' : s.callers.length = 1 := by simpa using hlen
    have h0 := h hlen'
    obtain ⟨h1, h2⟩ := one_set (CallerPc.idle : CallerPc V ρ ε) hlen' hpc
    simp only [inflight, h1, List.flatMap_cons, List.flatMap_nil] at h0
    simp only [inflight, h2, List.flatMap_cons, List.flatMap_nil]
    simpa [CallerPc.task] using h0

theorem size_trans {s s' : State V ρ ε} {l : Label V ρ ε} (ht : Trans s l s') :
    s'.workers_.length = s.workers_.length := by
  cases ht <;> simp [notify_all]

/-- Every transition preserves the invariants. -/
theorem inv_trans {N : Nat} {s s' : State V ρ ε} (h : Inv N s) {l : Label V ρ ε} (ht : Trans s l s') : Inv N s' :=
  { size := (size_trans ht).trans h.size
    mutex := mutexInv_trans h.mutex ht
    owner := ownerInv_trans h.mutex h.owner ht
    queue := queueInv_trans h.queue ht
    ids := idInv_trans h.ids ht
    shared := sharedInv_trans h.shared ht
    exit := exitInv_trans h.exit ht
    join := joinInv_trans h.join ht
    oneWorker := oneWorkerInv_trans h.oneWorker ht
    oneCaller := oneCallerInv_trans h.oneCaller ht }

theorem flatMap_replicate_nil {α β : Type} (f : α → List β) (x : α) (hx : f x = []) (n : Nat) :
    (List.replicate n x).flatMap f = [] := by
  induction n with
  | zero => rfl
  | succ n ih => simp [List.replicate_succ, hx, ih]

/-- A freshly constructed pool satisfies the invariants. -/
theorem inv_init (N C : Nat) (mem : List V) : Inv N (init N C mem : State V ρ ε) := by
  have hheld : heldTasks (init N C mem : State V ρ ε) = [] :=
    flatMap_replicate_nil _ _ rfl N
  have hfl : inflight (init N C mem : State V ρ ε) = [] :=
    flatMap_replicate_nil _ _ rfl C
  refine
    { size := by simp [init]
      mutex := ⟨?_, ?_, ?_⟩
      owner := trivial
      queue := ⟨rfl, ?_⟩
      ids := ⟨?_, ?_⟩
      shared := ⟨?_, ?_, ?_⟩
      exit := ⟨rfl, ?_, ?_⟩
      join := ⟨?_, ?_⟩
      oneWorker := ?_
      oneCaller := ?_ }
  · intro i pc hpc
    have hmem := List.mem_iff_getElem?.mpr ⟨i, hpc⟩
    have := List.eq_of_mem_replicate hmem
    subst this
    simp [init, WorkerPc.holds]
  · intro i pc hpc
    have hmem := List.mem_iff_getElem?.mpr ⟨i, hpc⟩
    have := List.eq_of_mem_replicate hmem
    subst this
    simp [init, CallerPc.holds]
  · simp [init, DtorPc.holds]
  · rw [hheld]; exact List.Perm.refl _
  · rw [hfl]; simp [init]
  · rw [hfl]; intro t ht; simp [init] at ht
  · intro id r hmem; simp [init] at hmem
  · intro t a hmem; simp [init] at hmem
  · intro t a hmem; simp [init] at hmem
  · intro pc hmem hdone
    have := List.eq_of_mem_replicate hmem
    subst this
    simp [WorkerPc.isDone] at hdone
  · intro hn; simp [init, DtorPc.notified] at hn
  · intro k hk; simp [init] at hk
  · intro hk; simp [init] at hk
  · intro _; rw [hheld]; rfl
  · intro _; rw [hfl]; rfl

theorem inv_step {N : Nat} {s s' : State V ρ ε} {l : Label V ρ ε} (h : Inv N s)
    (hs : step s l = some s') : Inv N s' :=
  inv_trans h (step_trans hs).2

theorem inv_reachable {N C : Nat} {mem : List V} {s : State V ρ ε}
    (h : Reachable N C mem s) : Inv N s := by
  induction h with
  | init => exact inv_init N C mem
  | step l _ hs ih => exact inv_step ih hs

theorem inv_run {N : Nat} {s s' : State V ρ ε} {ls : List (Label V ρ ε)} (h : Inv N s)
    (hr : run s ls = some s') : Inv N s' := by
  induction ls generalizing s with
  | nil => cases hr; exact h
  | cons l ls ih =>
    simp only [run] at hr
    split at hr
    · exact ih (inv_step h ‹_›) hr
    · cases hr

theorem reachable_run {N C : Nat} {mem : List V} {s s' : State V ρ ε}
    {ls : List (Label V ρ ε)} (h : Reachable N C mem s) (hr : run s ls = some s') :
    Reachable N C mem s' := by
  induction ls generalizing s with
  | nil => cases hr; exact h
  | cons l ls ih =>
    simp only [run] at hr
    split at hr
    · exact ih (Reachable.step l h ‹_›) hr
    · cases hr

/-! ## Consequences of the invariants -/

theorem loadArgs_vals (m : List V) (vs : List V) : loadArgs m (vs.map Arg.val) = some vs := by
  induction vs with
  | nil => rfl
  | cons v vs ih => simp [loadArgs, Arg.load, ih]

/-- The executed, owned and queued tasks are the pushed ones. -/
theorem tasks_perm {N : Nat} {s : State V ρ ε} (h : Inv N s) :
    (s.executed.map Prod.fst ++ heldTasks s ++ s.tasks_).Perm s.pushed := by
  rw [← h.queue.fifo]
  exact (List.perm_append_right_iff _).mpr h.queue.held

/-- No promise belongs to two of the executed, owned and queued tasks. -/
theorem tasks_nodup {N : Nat} {s : State V ρ ε} (h : Inv N s) :
    ((s.executed.map Prod.fst ++ heldTasks s ++ s.tasks_).map PackagedTask.prom_).Nodup := by
  have h1 : (s.pushed.map PackagedTask.prom_).Nodup := by
    have := h.ids.nodup
    rw [List.map_append] at this
    exact (List.nodup_append.mp this).2.1
  exact (((tasks_perm h).map PackagedTask.prom_).nodup_iff).mpr h1

theorem mem_heldTasks {s : State V ρ ε} {i : Nat} {pc : WorkerPc V ρ ε} {t : PackagedTask V ρ ε}
    (hpc : s.workers_[i]? = some pc) (ht : t ∈ pc.task) : t ∈ heldTasks s := by
  unfold heldTasks
  rw [List.mem_flatMap]
  exact ⟨pc, List.mem_iff_getElem?.mpr ⟨i, hpc⟩, ht⟩

/-- The promise of a task a worker owns is not yet satisfied. -/
theorem held_not_ready {N : Nat} {s : State V ρ ε} (h : Inv N s) {t : PackagedTask V ρ ε}
    (ht : t ∈ heldTasks s) : s.shared.lookup t.prom_ = none := by
  cases hl : s.shared.lookup t.prom_ with
  | none => rfl
  | some r =>
    exfalso
    have hk := h.shared.keys _ _ (lookup_mem hl)
    obtain ⟨x, hx, hid⟩ := List.mem_map.mp hk
    have hnd := tasks_nodup h
    rw [List.map_append, List.map_append] at hnd
    have hnd' := (List.nodup_append.mp hnd).1
    have hdis := (List.nodup_append.mp hnd').2.2
    have h1 : t.prom_ ∈ (s.executed.map Prod.fst).map PackagedTask.prom_ :=
      List.mem_map.mpr ⟨x.1, List.mem_map.mpr ⟨x, hx, rfl⟩, hid⟩
    have h2 : t.prom_ ∈ (heldTasks s).map PackagedTask.prom_ := List.mem_map.mpr ⟨t, ht, rfl⟩
    exact hdis h1 h2

/-- The worker's call of `execute` on a task whose callable returns `v`. -/
theorem workerStep_exec {N : Nat} {s : State V ρ ε} (h : Inv N s) {i : Nat}
    {t : PackagedTask V ρ ε} {a : List V} {v : ρ}
    (hpc : s.workers_[i]? = some (.exec t)) (hc : s.crashed = none)
    (ha : loadArgs s.mem t.args_ = some a) (hv : t.fn_ a = .ret v) :
    step s (.worker i) = some { s with
      shared := (t.prom_, .value v) :: s.shared,
      executed := s.executed ++ [(t, a)],
      workers_ := s.workers_.set i .lock } := by
  have hmem : t ∈ (WorkerPc.exec t : WorkerPc V ρ ε).task := List.Mem.head _
  have hl := held_not_ready h (mem_heldTasks hpc hmem)
  have hx : t.execute s.mem s.shared = .ret ((t.prom_, .value v) :: s.shared) := by
    simp [PackagedTask.execute, ha, hv, set_value, hl]
  unfold step
  rw [hc]
  simp only
  unfold workerStep
  rw [hpc]
  simp only
  rw [hx, ha]
  simp [hc]

/-- C1: for every worker count `N ≥ 1`, when a worker calls `execute` on a task whose
callable returns `v` on the stored arguments, the step succeeds and the task's future holds `v`;
the future of every executed task holds exactly the value its callable returned on the
arguments it received, and these are the submitted values when they were passed as rvalues.
In particular the lambda `i -> i*i` submitted with `i` yields `i*i`, and `sink` submitted
with a `unique_ptr` owning 42 yields 42. -/
theorem C1_future_holds_result (N C : Nat) (hN : 1 ≤ N) :
    (∀ (V ρ ε : Type) (mem : List V) (s : State V ρ ε), Reachable N C mem s →
      (∀ (i : Nat) (t : PackagedTask V ρ ε) (a : List V) (v : ρ),
        s.workers_[i]? = some (.exec t) → s.crashed = none →
        loadArgs s.mem t.args_ = some a → t.fn_ a = .ret v →
        ∃ s', step s (.worker i) = some s' ∧ (t, a) ∈ s'.executed ∧
          future_get s'.shared t.prom_ = some (.value v) ∧ s'.crashed = none) ∧
      (∀ t a, (t, a) ∈ s.executed →
        ∃ v, t.fn_ a = .ret v ∧ future_get s.shared t.prom_ = some (.value v)) ∧
      (∀ t a vs, (t, a) ∈ s.executed → t.args_ = vs.map Arg.val → a = vs)) ∧
    (∀ (mem : List ExVal) (s : State ExVal Int String), Reachable N C mem s →
      ∀ t a, (t, a) ∈ s.executed →
        (∀ i : Int, t.fn_ = squareFn → t.args_ = [.val (.int i)] →
          future_get s.shared t.prom_ = some (.value (i * i))) ∧
        (t.fn_ = sink → t.args_ = [.val (.uptr (some 42))] →
          future_get s.shared t.prom_ = some (.value 42))) := by
  have hN' := hN
  have hargs : ∀ (V ρ ε : Type) (mem : List V) (s : State V ρ ε), Reachable N C mem s →
      ∀ t a vs, (t, a) ∈ s.executed → t.args_ = vs.map Arg.val → a = vs := by
    intro V ρ ε mem s hr t a vs hmem hvs
    obtain ⟨m, hm⟩ := (inv_reachable hr).shared.args t a hmem
    rw [hvs, loadArgs_vals] at hm
    cases hm
    rfl
  refine ⟨?_, ?_⟩
  · intro V ρ ε mem s hr
    have hinv := inv_reachable hr
    refine ⟨?_, hinv.shared.vals, hargs V ρ ε mem s hr⟩
    intro i t a v hpc hc ha hv
    refine ⟨_, workerStep_exec hinv hpc hc ha hv, ?_, ?_, hc⟩
    · simp
    · simp [future_get, List.lookup_cons]
  · intro mem s hr t a hmem
    have hinv := inv_reachable hr
    obtain ⟨v, hv, hg⟩ := hinv.shared.vals t a hmem
    refine ⟨?_, ?_⟩
    · intro i hf ha
      have := hargs _ _ _ mem s hr t a [.int i] hmem (by rw [ha]; rfl)
      subst this
      rw [hf] at hv
      simp only [squareFn] at hv
      split at hv
      · cases hv; exact hg
      · cases hv
    · intro hf ha
      have := hargs _ _ _ mem s hr t a [.uptr (some 42)] hmem (by rw [ha]; rfl)
      subst this
      rw [hf] at hv
      simp only [sink] at hv
      cases hv
      exact hg

/-- C1 at example.cpp: with four workers, after `main` has submitted the lambda with 4 and
`sink` with a pointer to 42 and two workers have run them, the futures hold 16 and 42. -/
theorem C1_future_holds_result_witness :
    1 ≤ 4 ∧ Reachable 4 1 [] exampleState ∧
    future_get exampleState.shared 0 = some (.value 16) ∧
    future_get exampleState.shared 1 = some (.value 42) := by
  have hr : Reachable 4 1 [] exampleState :=
    reachable_run Reachable.init (rfl : run (init 4 1 []) exampleSchedule = some exampleState)
  have h := (C1_future_holds_result 4 1 (by decide)).2 [] exampleState hr
  refine ⟨by decide, hr, ?_, ?_⟩
  · exact (h ⟨squareFn, 0, [.val (.int 4)]⟩ [.int 4]
      (List.Mem.head _)).1 4 rfl rfl
  · exact (h ⟨sink, 1, [.val (.uptr (some 42))]⟩ [.uptr (some 42)]
      (List.Mem.tail _ (List.Mem.head _))).2 rfl rfl

theorem callers_length_trans {s s' : State V ρ ε} {l : Label V ρ ε} (ht : Trans s l s') :
    s'.callers.length = s.callers.length := by
  cases ht <;> simp

theorem callers_length_reachable {N C : Nat} {mem : List V} {s : State V ρ ε}
    (h : Reachable N C mem s) : s.callers.length = C := by
  induction h with
  | init => simp [init]
  | step l _ hs ih => exact (callers_length_trans (step_trans hs).2).trans ih

/-- C9: in every reachable state a worker that is about to call `execute` does not own the
mutex; the unlock of line 74 is what brings it there and leaves the mutex free; and every
step that changes the queue or the shutdown flag is a step of the thread that owns the
mutex. -/
theorem C9_execute_outside_lock (N C : Nat) (mem : List V) (s : State V ρ ε)
    (hr : Reachable N C mem s) :
    (∀ (i : Nat) (t : PackagedTask V ρ ε),
      s.workers_[i]? = some (.exec t) → s.mtx_ ≠ some (.worker i)) ∧
    (∀ (i : Nat) (t : PackagedTask V ρ ε) (s' : State V ρ ε),
      s.workers_[i]? = some (.unlock t) → step s (.worker i) = some s' →
      s.mtx_ = some (.worker i) ∧ s'.mtx_ = none ∧ s'.workers_[i]? = some (.exec t)) ∧
    (∀ l s', step s l = some s' → (s'.tasks_ ≠ s.tasks_ ∨ s'.exit_ ≠ s.exit_) →
      ∃ tid, l.tid = some tid ∧ s.mtx_ = some tid) := by
  have hinv := inv_reachable hr
  refine ⟨?_, ?_, ?_⟩
  · intro i t hpc hm
    have := (hinv.mutex.w i _ hpc).mpr hm
    simp [WorkerPc.holds] at this
  · intro i t s' hpc hs
    have hlt := (List.getElem?_eq_some.mp hpc).1
    refine ⟨(hinv.mutex.w i _ hpc).mp rfl, ?_⟩
    unfold step at hs
    split at hs
    · cases hs
    · simp only [workerStep, hpc] at hs
      cases hs
      simp [List.getElem?_set, hlt]
  · intro l s' hs hchg
    unfold step at hs
    split at hs
    · cases hs
    · cases l with
      | worker i =>
        refine ⟨.worker i, rfl, ?_⟩
        simp only [workerStep] at hs
        split at hs
        · split at hs
          · cases hs; simp at hchg
          · cases hs
        · rename_i hpc
          exact (hinv.mutex.w i _ hpc).mp rfl
        · rename_i t hpc
          exact (hinv.mutex.w i _ hpc).mp rfl
        · split at hs
          · cases hs; simp at hchg
          · cases hs; simp at hchg
          · cases hs
        · cases hs
      | wake i =>
        simp only [wakeStep] at hs
        split at hs
        · cases hs; simp at hchg
        · cases hs
      | call j fn args =>
        simp only [callStep] at hs
        split at hs
        · cases hs; simp at hchg
        · cases hs
      | caller j w =>
        refine ⟨.caller j, rfl, ?_⟩
        simp only [callerStep] at hs
        split at hs
        · split at hs
          · cases hs; simp at hchg
          · cases hs
        · rename_i t hpc
          exact (hinv.mutex.c j _ hpc).mp rfl
        · rename_i hpc
          exact (hinv.mutex.c j _ hpc).mp rfl
        · split at hs
          · cases hs; simp at hchg
          · cases hs
        · cases hs
      | store addr v => cases hs; simp at hchg
      | dtor =>
        refine ⟨.owner, rfl, ?_⟩
        simp only [dtorStep] at hs
        split at hs
        · cases hs; simp at hchg
        · split at hs
          · cases hs; simp at hchg
          · cases hs
        · rename_i hpc
          exact hinv.mutex.d.mp (by rw [hpc]; rfl)
        · rename_i hpc
          exact hinv.mutex.d.mp (by rw [hpc]; rfl)
        · cases hs; simp at hchg
        · split at hs
          · cases hs; simp at hchg
          · cases hs; simp at hchg
          · cases hs
        · cases hs

/-- C4: the tasks popped so far, followed by the queue, are the tasks pushed so far, in the
order of the pushes; so the pops take the pushed tasks in submission order.  With one worker
the tasks whose execution has begun, in that order, followed by the one the worker owns and by
the queue, are the pushed tasks in order; with one caller thread the k-th push is the task
of the k-th call of `enqueue`. -/
theorem C4_fifo_order (N C : Nat) (mem : List V) (s : State V ρ ε)
    (hr : Reachable N C mem s) :
    s.popped ++ s.tasks_ = s.pushed ∧
    (N = 1 → s.executed.map Prod.fst ++ heldTasks s ++ s.tasks_ = s.pushed) ∧
    (C = 1 → (s.pushed ++ inflight s).map PackagedTask.prom_ = List.range s.next) := by
  have hinv := inv_reachable hr
  refine ⟨hinv.queue.fifo, ?_, ?_⟩
  · intro hN
    rw [hinv.oneWorker (hinv.size.trans hN)]
    exact hinv.queue.fifo
  · intro hC
    exact hinv.oneCaller ((callers_length_reachable hr).trans hC)

/-- C5: in every reachable state the executed tasks, the tasks owned by workers and the
queued tasks together are exactly the pushed tasks, and no promise occurs twice among them:
each submitted task is in exactly one of the three places and owned by at most one worker.  A
task about to be executed is neither in the queue nor among the executed ones, every
executed task was invoked with a reading of its stored arguments, and there are no more
executions than submissions. -/
theorem C5_no_double_execution (N C : Nat) (mem : List V) (s : State V ρ ε)
    (hr : Reachable N C mem s) :
    (s.executed.map Prod.fst ++ heldTasks s ++ s.tasks_).Perm s.pushed ∧
    ((s.executed.map Prod.fst ++ heldTasks s ++ s.tasks_).map PackagedTask.prom_).Nodup ∧
    (∀ (i : Nat) (t : PackagedTask V ρ ε), s.workers_[i]? = some (.exec t) →
      t.prom_ ∉ s.tasks_.map PackagedTask.prom_ ∧
      t.prom_ ∉ (s.executed.map Prod.fst).map PackagedTask.prom_) ∧
    (∀ t a, (t, a) ∈ s.executed → ∃ m, loadArgs m t.args_ = some a) ∧
    s.executed.length ≤ s.pushed.length := by
  have hinv := inv_reachable hr
  have hp := tasks_perm hinv
  have hnd := tasks_nodup hinv
  refine ⟨hp, hnd, ?_, hinv.shared.args, ?_⟩
  · intro i t hpc
    have hmem : t ∈ (WorkerPc.exec t : WorkerPc V ρ ε).task := List.Mem.head _
    have hheld : t.prom_ ∈ (heldTasks s).map PackagedTask.prom_ :=
      List.mem_map.mpr ⟨t, mem_heldTasks hpc hmem, rfl⟩
    rw [List.map_append, List.map_append] at hnd
    obtain ⟨h1, _, h2⟩ := List.nodup_append.mp hnd
    obtain ⟨_, _, h3⟩ := List.nodup_append.mp h1
    refine ⟨?_, ?_⟩
    · intro hq
      exact h2 (List.mem_append.mpr (Or.inr hheld)) hq
    · intro he
      exact h3 he hheld
  · have := hp.length_eq
    simp only [List.length_append, List.length_map] at this
    omega

/-- C9 at a state where worker 0 is about to execute a task while worker 1 owns the mutex. -/
theorem C9_execute_outside_lock_witness :
    Reachable 2 1 [] overlapState ∧
    overlapState.workers_.map WorkerPc.holds = [false, true] ∧
    overlapState.mtx_ = some (.worker 1) ∧
    overlapState.mtx_ ≠ some (.worker 0) := by
  have hr : Reachable 2 1 [] overlapState :=
    reachable_run Reachable.init (rfl : run (init 2 1 []) overlapSchedule = some overlapState)
  exact ⟨hr, rfl, rfl,
    (C9_execute_outside_lock 2 1 [] overlapState hr).1 0 ⟨squareFn, 0, [.val (.int 4)]⟩ rfl⟩

/-- C4 at a pool with one worker and one caller: of two submitted tasks the first has been
executed and the second popped. -/
theorem C4_fifo_order_witness :
    Reachable 1 1 [] fifoState ∧
    fifoState.pushed.map PackagedTask.prom_ = [0, 1] ∧
    fifoState.popped ++ fifoState.tasks_ = fifoState.pushed ∧
    fifoState.executed.map Prod.fst ++ heldTasks fifoState ++ fifoState.tasks_
      = fifoState.pushed ∧
    (fifoState.pushed ++ inflight fifoState).map PackagedTask.prom_
      = List.range fifoState.next := by
  have hr : Reachable 1 1 [] fifoState :=
    reachable_run Reachable.init (rfl : run (init 1 1 []) fifoSchedule = some fifoState)
  have h := C4_fifo_order 1 1 [] fifoState hr
  exact ⟨hr, rfl, h.1, h.2.1 rfl, h.2.2 rfl⟩

/-- C5 at a pool with two workers: of three submitted tasks one is executed, one is owned by
worker 1 and one is queued. -/
theorem C5_no_double_execution_witness :
    Reachable 2 1 [] sharingState ∧
    (sharingState.executed.map Prod.fst).map PackagedTask.prom_ = [0] ∧
    (heldTasks sharingState).map PackagedTask.prom_ = [1] ∧
    sharingState.tasks_.map PackagedTask.prom_ = [2] ∧
    ((sharingState.executed.map Prod.fst ++ heldTasks sharingState ++
      sharingState.tasks_).map PackagedTask.prom_).Nodup ∧
    sharingState.executed.length ≤ sharingState.pushed.length := by
  have hr : Reachable 2 1 [] sharingState :=
    reachable_run Reachable.init (rfl : run (init 2 1 []) sharingSchedule = some sharingState)
  have h := C5_no_double_execution 2 1 [] sharingState hr
  exact ⟨hr, rfl, rfl, rfl, h.2.1, h.2.2.2.2⟩

/-- C2, as stated, fails: for the task built from `throwFn`, `execute` does not return and
no failure is stored in the shared state; in the run `throwSchedule` the process ends in
`std::terminate` with the future never made ready. -/
theorem C2_counterexample :
    (¬ ∃ sh', (⟨throwFn, 0, [.val (.int 1)]⟩ : PackagedTask ExVal Int String).execute [] []
        = .ret sh' ∧ future_get sh' 0 = some (.error "boom")) ∧
    (run (init 1 1 []) throwSchedule).map
      (fun s => (s.crashed, future_get s.shared 0, s.workers_.map WorkerPc.isDone))
      = some (some (.user "boom"), none, [false]) := by
  refine ⟨?_, rfl⟩
  rintro ⟨sh', h, _⟩
  cases h

/-- C2, amended: when the callable of a task raises `e`, `execute` ends by raising `e`
and stores nothing; the worker loop has no handler either, so the worker's step leaves the
shared states unchanged, ends the process in `std::terminate`, and no thread takes a step
afterwards. -/
theorem C2_exception_escapes (t : PackagedTask V ρ ε) (mem : List V) (sh : Shared ρ ε)
    (a : List V) (e : ε) (ha : loadArgs mem t.args_ = some a) (he : t.fn_ a = .raise e) :
    t.execute mem sh = .raise (.user e) ∧
    ∀ (s : State V ρ ε) (i : Nat), s.mem = mem → s.shared = sh → s.crashed = none →
      s.workers_[i]? = some (.exec t) →
      ∃ s', step s (.worker i) = some s' ∧ s'.crashed = some (.user e) ∧ s'.shared = sh ∧
        ∀ l, step s' l = none := by
  have hx : t.execute mem sh = .raise (.user e) := by
    simp [PackagedTask.execute, ha, he]
  refine ⟨hx, ?_⟩
  intro s i hm hs hc hpc
  subst hm; subst hs
  refine ⟨{ s with crashed := some (.user e) }, ?_, rfl, rfl, ?_⟩
  · unfold step
    rw [hc]
    simp only
    unfold workerStep
    rw [hpc]
    simp only
    rw [hx]
  · intro l
    rfl

/-- C2 amended, at the task built from `throwFn`. -/
theorem C2_exception_escapes_witness :
    (⟨throwFn, 0, [.val (.int 1)]⟩ : PackagedTask ExVal Int String).execute [] []
      = .raise (.user "boom") :=
  (C2_exception_escapes ⟨throwFn, 0, [.val (.int 1)]⟩ [] [] [.int 1] "boom" rfl rfl).1

/-- C6 fails on the code: after `enqueue(readFn, x)` with a variable `x` holding `v0`, the
caller assigns `x = v1` and the worker then runs the task; the callable receives `v1` and
the future holds `v1`, the value at execution, not the value at submission.  The same run with
the argument passed as an rvalue delivers `v0`. -/
theorem C6_lvalue_read_at_execution (v0 v1 : Int) :
    (run (init 1 1 [.int v0]) (lvalueSchedule v1)).map
      (fun s => (s.executed.map (fun x => x.1.args_), future_get s.shared 0))
      = some ([[.ref 0]], some (.value v1)) ∧
    (run (init 1 1 [.int v0]) (lvalueSchedule v1)).map
      (fun s => s.executed.map (fun x => x.2.map (fun v => match v with
        | .int i => some i
        | .uptr _ => none)))
      = some [[some v1]] ∧
    (run (init 1 1 [.int v0]) (rvalueSchedule v0 v1)).map
      (fun s => future_get s.shared 0) = some (some (.value v0)) := by
  exact ⟨rfl, rfl, rfl⟩

theorem make_workers_impl_thrown (canStart : Nat → Bool) (l : List Nat) (j k : Nat)
    (acc : List (WorkerPc V ρ ε)) (hk : l[j]? = some k) (hf : canStart k = false)
    (hb : ∀ j' I, j' < j → l[j']? = some I → canStart I = true) :
    make_workers_impl canStart l acc = .thrown (acc.length + j) := by
  induction l generalizing j acc with
  | nil => simp at hk
  | cons I rest ih =>
    cases j with
    | zero =>
      simp at hk
      subst hk
      simp [make_workers_impl, hf]
    | succ j =>
      have hI : canStart I = true := hb 0 I (Nat.succ_pos _) (by simp)
      simp only [make_workers_impl, hI, if_true]
      rw [ih j (acc ++ [WorkerPc.lock]) (by simpa using hk)
        (fun j' I' hlt hget => hb (j' + 1) I' (Nat.succ_lt_succ hlt) (by simpa using hget))]
      simp
      omega

theorem make_workers_impl_ok (canStart : Nat → Bool) (l : List Nat)
    (acc : List (WorkerPc V ρ ε)) (hb : ∀ I ∈ l, canStart I = true) :
    make_workers_impl canStart l acc = .ok (acc ++ List.replicate l.length .lock) := by
  induction l generalizing acc with
  | nil => simp [make_workers_impl]
  | cons I rest ih =>
    have hI : canStart I = true := hb I (List.mem_cons_self _ _)
    simp only [make_workers_impl, hI, if_true]
    rw [ih (acc ++ [WorkerPc.lock]) (fun I' h' => hb I' (List.mem_cons_of_mem _ h'))]
    simp [List.replicate_succ]

/-- When every thread starts, the constructor yields the initial state of the pool. -/
theorem construct_ok (N C : Nat) (mem : List V) (canStart : Nat → Bool)
    (h : ∀ I, I < N → canStart I = true) :
    (construct N C mem canStart : Construction V ρ ε) = .ok (init N C mem) := by
  unfold construct make_workers
  rw [make_workers_impl_ok canStart (List.range N) [] (fun I hI => h I (List.mem_range.mp hI))]
  simp [init]

/-- C7, as stated, fails: when the second of two threads cannot be started the constructor
does not report the failure to the creator, the process terminates. -/
theorem C7_counterexample :
    (construct 2 1 [] (fun I => decide (I < 1)) : Construction ExVal Int String)
      = .terminated ∧
    (construct 2 1 [] (fun I => decide (I < 1)) : Construction ExVal Int String)
      ≠ .thrown := by
  refine ⟨rfl, ?_⟩
  intro h
  cases h

/-- C7, amended: let thread number `k + 1` of `N` be the first that cannot be started.
If it is the first thread (`k = 0`), the constructor reports the failure to the creator
and no thread of the pool runs.  Otherwise the `k` started threads are neither signalled
nor joined: the process ends in `std::terminate`. -/
theorem C7_construction_failure (N C : Nat) (mem : List V) (canStart : Nat → Bool) (k : Nat)
    (hk : k < N) (hf : canStart k = false) (hb : ∀ I, I < k → canStart I = true) :
    (k = 0 → (construct N C mem canStart : Construction V ρ ε) = .thrown) ∧
    (0 < k → (construct N C mem canStart : Construction V ρ ε) = .terminated) := by
  have h : (make_workers N canStart : Spawn V ρ ε) = .thrown k := by
    unfold make_workers
    rw [make_workers_impl_thrown canStart (List.range N) k k [] (by simp [hk]) hf]
    · simp
    · intro j' I hlt hget
      have hj' : j' < N := Nat.lt_trans hlt hk
      rw [List.getElem?_range hj'] at hget
      cases hget
      exact hb _ hlt
  refine ⟨?_, ?_⟩
  · intro h0
    subst h0
    unfold construct
    rw [h]
  · intro hpos
    obtain ⟨k', rfl⟩ : ∃ k', k = k' + 1 := ⟨k - 1, by omega⟩
    unfold construct
    rw [h]

/-- C7 amended, at `N = 2`: a failure of the first thread is reported, a failure of the
second terminates the process. -/
theorem C7_construction_failure_witness :
    (construct 2 1 [] (fun _ => false) : Construction ExVal Int String) = .thrown ∧
    (construct 2 1 [] (fun I => decide (I < 1)) : Construction ExVal Int String)
      = .terminated :=
  ⟨(C7_construction_failure 2 1 [] (fun _ => false) 0 (by decide) rfl
      (fun _ h => absurd h (Nat.not_lt_zero _))).1 rfl,
   (C7_construction_failure 2 1 [] (fun I => decide (I < 1)) 1 (by decide) rfl
      (fun I h => by simpa using h)).2 (by decide)⟩

/-- What a whole call of `enqueue` does when the mutex is free: it never reads `exit_`. -/
theorem enqueue_eq {s : State V ρ ε} {j w : Nat} {ws : List (WorkerPc V ρ ε)}
    (fn : List V → Outcome ρ ε) (args : List (Arg V))
    (hj : s.callers[j]? = some .idle) (hm : s.mtx_ = none) (hc : s.crashed = none)
    (hn : notify_one s.workers_ w = some ws) :
    enqueue s j w fn args = some { s with
      tasks_ := s.tasks_ ++ [⟨fn, s.next, args⟩],
      pushed := s.pushed ++ [⟨fn, s.next, args⟩],
      next := s.next + 1,
      workers_ := ws,
      callers := s.callers.set j .idle } := by
  have hlt : j < s.callers.length := (List.getElem?_eq_some.mp hj).1
  simp [enqueue, enqueueSchedule, run, step, callStep, callerStep, hj, hm, hc, hn, hlt,
    List.getElem?_set]

/-- C8, as stated, fails: in `lateState` the shutdown flag is set and the queue is empty;
a call of `enqueue` reports no error and leaves the task in the queue. -/
theorem C8_counterexample :
    Reachable 1 1 [] lateState ∧ lateState.exit_ = true ∧ lateState.tasks_.length = 0 ∧
    (enqueue lateState 0 0 squareFn [.val (.int 4)]).map
      (fun s => (s.exit_, s.tasks_.map PackagedTask.prom_)) = some (true, [0]) := by
  refine ⟨?_, rfl, rfl, rfl⟩
  exact reachable_run Reachable.init (rfl : run (init 1 1 []) flagSchedule = some lateState)

/-- C8, amended: `enqueue` does not look at the shutdown flag.  In every state in which the
caller is outside `enqueue` and the mutex is free, whether `exit_` is set or not, a call
returns normally with the new task appended to the queue and `exit_` unchanged. -/
theorem C8_enqueue_ignores_exit (s : State V ρ ε) (j w : Nat) (fn : List V → Outcome ρ ε)
    (args : List (Arg V)) (hj : s.callers[j]? = some .idle) (hm : s.mtx_ = none)
    (hc : s.crashed = none) (hn : (notify_one s.workers_ w).isSome = true) :
    ∃ s', enqueue s j w fn args = some s' ∧
      s'.tasks_ = s.tasks_ ++ [⟨fn, s.next, args⟩] ∧ s'.exit_ = s.exit_ ∧
      s'.crashed = none := by
  obtain ⟨ws, hws⟩ := Option.isSome_iff_exists.mp hn
  exact ⟨_, enqueue_eq fn args hj hm hc hws, rfl, rfl, hc⟩

/-- C8 amended, at `lateState`, where the shutdown flag is set. -/
theorem C8_enqueue_ignores_exit_witness :
    lateState.exit_ = true ∧
    ∃ s', enqueue lateState 0 0 squareFn [.val (.int 4)] = some s' ∧
      s'.tasks_ = lateState.tasks_ ++ [⟨squareFn, lateState.next, [.val (.int 4)]⟩] ∧
      s'.exit_ = lateState.exit_ ∧ s'.crashed = none :=
  ⟨rfl, C8_enqueue_ignores_exit lateState 0 0 squareFn [.val (.int 4)] rfl rfl rfl rfl⟩

theorem run_append (s : State V ρ ε) (l₁ l₂ : List (Label V ρ ε)) :
    run s (l₁ ++ l₂) = (run s l₁).bind (fun s' => run s' l₂) := by
  induction l₁ generalizing s with
  | nil => rfl
  | cons l l₁ ih =>
    simp only [List.cons_append, run]
    cases step s l with
    | none => rfl
    | some s' => exact ih s'

/-- A pool without workers never pops or executes anything. -/
theorem zero_workers_trans {s s' : State V ρ ε} {l : Label V ρ ε} (ht : Trans s l s')
    (h : s.workers_ = [] ∧ s.tasks_ = s.pushed ∧ s.popped = [] ∧ s.executed = [] ∧
      s.shared = [] ∧ s.crashed = none) :
    s'.workers_ = [] ∧ s'.tasks_ = s'.pushed ∧ s'.popped = [] ∧ s'.executed = [] ∧
      s'.shared = [] ∧ s'.crashed = none := by
  obtain ⟨hw, hq, hp, he, hs, hc⟩ := h
  cases ht with
  | wLock i hpc hm | wake i hpc | wExit i hpc hq he | wWait i hpc hq he
  | wUnlock i t hpc | wPop i t rest hpc hq | wExec i t sh hpc hx | wCrash i t e hpc hx =>
    rw [hw] at hpc
    simp at hpc
  | cNotify j w hpc hw' =>
    rw [hw] at hw'
    simp at hw'
  | store addr v | call j fn args hpc | cLock j t hpc hm | cUnlock j hpc
  | cNotifyNone j hpc hw' | dCall hpc | dLock hpc hm | dSet hpc | dUnlock hpc
  | dJoin k hpc hw' | dDone k hpc hw' => exact ⟨hw, hq, hp, he, hs, hc⟩
  | cPush j t hpc =>
    refine ⟨hw, ?_, hp, he, hs, hc⟩
    show s.tasks_ ++ [t] = s.pushed ++ [t]
    rw [hq]
  | dNotify hpc =>
    refine ⟨?_, hq, hp, he, hs, hc⟩
    show notify_all s.workers_ = []
    rw [hw]
    rfl

/-- The calls `enqueueAll` on a pool without workers: every call appends its task. -/
theorem enqueueAll_zero (j : Nat) (calls : List ((List V → Outcome ρ ε) × List (Arg V)))
    (s : State V ρ ε) (hj : s.callers[j]? = some .idle) (hm : s.mtx_ = none)
    (hc : s.crashed = none) (hw : s.workers_ = []) :
    ∃ s', run s (enqueueAll j calls) = some s' ∧
      s'.tasks_.length = s.tasks_.length + calls.length ∧ s'.callers[j]? = some .idle ∧
      s'.mtx_ = none ∧ s'.crashed = none ∧ s'.workers_ = [] ∧ s'.dtor = s.dtor ∧
      s'.exit_ = s.exit_ := by
  induction calls generalizing s with
  | nil => exact ⟨s, rfl, rfl, hj, hm, hc, hw, rfl, rfl⟩
  | cons c rest ih =>
    have hn : notify_one s.workers_ 0 = some [] := by
      rw [hw]; rfl
    have he := enqueue_eq c.1 c.2 hj hm hc hn
    have hlt : j < s.callers.length := (List.getElem?_eq_some.mp hj).1
    obtain ⟨s', hr, hlen, hj', hm', hc', hw', hd', he'⟩ :=
      ih { s with
        tasks_ := s.tasks_ ++ [⟨c.1, s.next, c.2⟩],
        pushed := s.pushed ++ [⟨c.1, s.next, c.2⟩],
        next := s.next + 1,
        workers_ := [],
        callers := s.callers.set j .idle }
        (by simp [List.getElem?_set, hlt]) hm hc rfl
    refine ⟨s', ?_, ?_, hj', hm', hc', hw', hd', he'⟩
    · simp only [enqueueAll]
      rw [run_append]
      unfold enqueue at he
      rw [he]
      exact hr
    · rw [hlen]
      simp
      omega

/-- The destructor of a pool without workers runs through without waiting. -/
theorem destroy_zero (s : State V ρ ε) (hd : s.dtor = .idle) (hm : s.mtx_ = none)
    (hc : s.crashed = none) (hw : s.workers_ = []) :
    run s (destroySchedule 0) = some { s with exit_ := true, dtor := .done } := by
  obtain ⟨m, q, e, ws, cs, d, mem, n, sh, cr, pu, po, ex⟩ := s
  simp only at hd hm hc hw
  subst hd hm hc hw
  rfl

/-- C10: a pool with `N = 0` executes nothing.  In every reachable state of `ThreadPool<0>`
the queue holds every task ever pushed, nothing has been popped or executed and no shared
state is ready; `K` calls of `enqueue` leave `K` tasks in the queue, and the destructor then
sets the shutdown flag and returns with the same `K` tasks queued, none executed and no
future holding a value. -/
theorem C10_zero_workers (C : Nat) (mem : List V) (j : Nat)
    (calls : List ((List V → Outcome ρ ε) × List (Arg V))) (hj : j < C) :
    (∀ s : State V ρ ε, Reachable 0 C mem s →
      s.workers_ = [] ∧ s.tasks_ = s.pushed ∧ s.popped = [] ∧ s.executed = [] ∧
      s.shared = [] ∧ s.crashed = none) ∧
    ∃ s s' : State V ρ ε, run (init 0 C mem) (enqueueAll j calls) = some s ∧
      s.tasks_.length = calls.length ∧ s.exit_ = false ∧
      run s (destroySchedule 0) = some s' ∧
      s'.dtor = .done ∧ s'.exit_ = true ∧ s'.tasks_ = s.tasks_ ∧ s'.executed = [] ∧
      ∀ id, future_get s'.shared id = none := by
  have hall : ∀ s : State V ρ ε, Reachable 0 C mem s →
      s.workers_ = [] ∧ s.tasks_ = s.pushed ∧ s.popped = [] ∧ s.executed = [] ∧
      s.shared = [] ∧ s.crashed = none := by
    intro s hr
    induction hr with
    | init => exact ⟨rfl, rfl, rfl, rfl, rfl, rfl⟩
    | step l _ hs ih => exact zero_workers_trans (step_trans hs).2 ih
  refine ⟨hall, ?_⟩
  obtain ⟨s, hr, hlen, _, hm, hc, hw, hd, he⟩ :=
    enqueueAll_zero j calls (init 0 C mem : State V ρ ε)
      (by simp [init, hj]) rfl rfl rfl
  have hs := hall s (reachable_run Reachable.init hr)
  refine ⟨s, _, hr, ?_, he, destroy_zero s hd hm hc hw, rfl, rfl, rfl, hs.2.2.2.1, ?_⟩
  · rw [hlen]
    simp [init]
  · intro id
    show future_get s.shared id = none
    rw [hs.2.2.2.2.1]
    rfl

/-- C10 at two calls of `enqueue` by the one caller of a `ThreadPool<0>`. -/
theorem C10_zero_workers_witness :
    0 < 1 ∧
    ∃ s s' : State ExVal Int String,
      run (init 0 1 []) (enqueueAll 0 [(squareFn, [.val (.int 4)]),
        (sink, [.val (.uptr (some 42))])]) = some s ∧
      s.tasks_.length = 2 ∧ s.exit_ = false ∧
      run s (destroySchedule 0) = some s' ∧
      s'.dtor = .done ∧ s'.exit_ = true ∧ s'.tasks_ = s.tasks_ ∧ s'.executed = [] ∧
      ∀ id, future_get s'.shared id = none :=
  ⟨by decide, (C10_zero_workers 1 [] 0 [(squareFn, [.val (.int 4)]),
    (sink, [.val (.uptr (some 42))])] (by decide)).2⟩

/-! ## Destruction drains the queue -/

theorem sum_weight_set {l : List (WorkerPc V ρ ε)} {i : Nat} {x : WorkerPc V ρ ε}
    (y : WorkerPc V ρ ε) (h : l[i]? = some x) :
    ((l.set i y).map WorkerPc.weight).sum + x.weight = (l.map WorkerPc.weight).sum + y.weight := by
  induction l generalizing i with
  | nil => simp at h
  | cons a l ih =>
    cases i with
    | zero =>
      simp at h; subst h
      simp only [List.set_cons_zero, List.map_cons, List.sum_cons]
      omega
    | succ i =>
      simp at h
      have := ih h
      simp only [List.set_cons_succ, List.map_cons, List.sum_cons]
      omega

theorem sum_weight_notify_all (l : List (WorkerPc V ρ ε)) :
    ((notify_all l).map WorkerPc.weight).sum ≤ (l.map WorkerPc.weight).sum := by
  induction l with
  | nil => simp [notify_all]
  | cons a l ih =>
    have ih' : ((List.map (fun pc : WorkerPc V ρ ε => match pc with
        | .wait => WorkerPc.lock
        | pc => pc) l).map WorkerPc.weight).sum ≤ (l.map WorkerPc.weight).sum := ih
    cases a <;> simp only [notify_all, List.map_cons, List.sum_cons, WorkerPc.weight] <;> omega

/-- Every step of the pool's threads after line 99 that does not end the process uses up
at least one of the steps left. -/
theorem stepsLeft_trans {s s' : State V ρ ε} {l : Label V ρ ε} (ht : Trans s l s')
    (hl : l.isPool = true) (he : s.exit_ = true) (hc : s'.crashed = none) :
    stepsLeft s' < stepsLeft s := by
  unfold stepsLeft
  cases ht with
  | wLock i hpc hm =>
    have h1 := sum_weight_set WorkerPc.check hpc
    simp [WorkerPc.weight] at h1 ⊢
    omega
  | wExit i hpc hq he' =>
    have h1 := sum_weight_set WorkerPc.done hpc
    simp [WorkerPc.weight] at h1 ⊢
    omega
  | wUnlock i t hpc =>
    have h1 := sum_weight_set (WorkerPc.exec t) hpc
    simp [WorkerPc.weight] at h1 ⊢
    omega
  | wExec i t sh hpc hx | wake i hpc =>
    have h1 := sum_weight_set WorkerPc.lock hpc
    simp [WorkerPc.weight] at h1 ⊢
    omega
  | wWait i hpc hq he' => rw [he] at he'; cases he'
  | wPop i t rest hpc hq =>
    have h1 := sum_weight_set (WorkerPc.unlock t) hpc
    simp [WorkerPc.weight, hq] at h1 ⊢
    omega
  | wCrash i t e hpc hx => cases hc
  | call j fn args hpc | cLock j t hpc hm | cPush j t hpc | cUnlock j hpc
  | cNotify j w hpc hw' | cNotifyNone j hpc hw' | store addr v => cases hl
  | dCall hpc | dLock hpc hm | dSet hpc | dUnlock hpc =>
    simp [hpc, DtorPc.weight]
  | dNotify hpc =>
    have h1 := sum_weight_notify_all s.workers_
    simp [hpc, DtorPc.weight, notify_all] at h1 ⊢
    omega
  | dJoin k hpc hw' =>
    have hlt := (List.getElem?_eq_some.mp hw').1
    simp [hpc, DtorPc.weight]
    omega
  | dDone k hpc hw' =>
    simp [hpc, DtorPc.weight]

theorem mem_flatMap_set {α β : Type} (f : α → List β) {l : List α} {i : Nat} {y : α} {t : β}
    (h : t ∈ (l.set i y).flatMap f) : t ∈ f y ∨ t ∈ l.flatMap f := by
  obtain ⟨x, hx, ht⟩ := List.mem_flatMap.mp h
  rcases mem_set_cases hx with rfl | hx'
  · exact Or.inl ht
  · exact Or.inr (List.mem_flatMap.mpr ⟨x, hx', ht⟩)

theorem drainInv_trans {s s' : State V ρ ε} {l : Label V ρ ε} (h : DrainInv s)
    (ht : Trans s l s') (hl : l.isPool = true) : DrainInv s' := by
  obtain ⟨hf, hq, hd⟩ := h
  cases ht with
  | wLock i hpc hm | wake i hpc | wUnlock i t hpc | wExec i t sh hpc hx
  | wWait i hpc hq' he' =>
    refine ⟨hf, hq, ?_⟩
    intro pc hmem hdone
    rcases mem_set_cases hmem with rfl | hmem'
    · simp [WorkerPc.isDone] at hdone
    · exact hd pc hmem' hdone
  | wExit i hpc hq' he' =>
    exact ⟨hf, hq, fun _ _ _ => hq'⟩
  | wPop i t rest hpc hq' =>
    refine ⟨hf, hq, ?_⟩
    intro pc hmem hdone
    rcases mem_set_cases hmem with rfl | hmem'
    · simp [WorkerPc.isDone] at hdone
    · have := hd pc hmem' hdone
      rw [hq'] at this
      cases this
  | wCrash i t e hpc hx => exact ⟨hf, hq, hd⟩
  | call j fn args hpc | cLock j t hpc hm | cPush j t hpc | cUnlock j hpc
  | cNotify j w hpc hw' | cNotifyNone j hpc hw' | store addr v => cases hl
  | dCall hpc | dLock hpc hm | dUnlock hpc | dJoin k hpc hw' | dDone k hpc hw' =>
    exact ⟨hf, hq, hd⟩
  | dSet hpc => exact ⟨rfl, hq, hd⟩
  | dNotify hpc =>
    refine ⟨hf, hq, ?_⟩
    intro pc hmem hdone
    rcases (mem_notify_all hmem).2 with hmem' | rfl
    · exact hd pc hmem' hdone
    · simp [WorkerPc.isDone] at hdone

/-- Steps of the pool's threads create no task and change no variable of a caller. -/
theorem pool_frame {s s' : State V ρ ε} {l : Label V ρ ε} (ht : Trans s l s')
    (hl : l.isPool = true) :
    s'.mem = s.mem ∧ s'.pushed = s.pushed ∧ s'.callers = s.callers ∧
    (∀ t ∈ heldTasks s' ++ s'.tasks_, t ∈ heldTasks s ++ s.tasks_) := by
  unfold heldTasks
  cases ht with
  | wLock i hpc hm | wake i hpc | wExit i hpc hq' he' | wWait i hpc hq' he'
  | wExec i t sh hpc hx =>
    refine ⟨rfl, rfl, rfl, ?_⟩
    intro t' ht'
    rcases List.mem_append.mp ht' with h1 | h1
    · rcases mem_flatMap_set WorkerPc.task h1 with h2 | h2
      · simp [WorkerPc.task] at h2
      · exact List.mem_append.mpr (Or.inl h2)
    · exact List.mem_append.mpr (Or.inr h1)
  | wUnlock i t hpc =>
    refine ⟨rfl, rfl, rfl, ?_⟩
    intro t' ht'
    rcases List.mem_append.mp ht' with h1 | h1
    · rcases mem_flatMap_set WorkerPc.task h1 with h2 | h2
      · refine List.mem_append.mpr (Or.inl ?_)
        have h3 : t' ∈ (WorkerPc.unlock t : WorkerPc V ρ ε).task := h2
        exact mem_heldTasks hpc h3
      · exact List.mem_append.mpr (Or.inl h2)
    · exact List.mem_append.mpr (Or.inr h1)
  | wPop i t rest hpc hq' =>
    refine ⟨rfl, rfl, rfl, ?_⟩
    intro t' ht'
    rcases List.mem_append.mp ht' with h1 | h1
    · rcases mem_flatMap_set WorkerPc.task h1 with h2 | h2
      · refine List.mem_append.mpr (Or.inr ?_)
        simp only [WorkerPc.task, List.mem_singleton] at h2
        rw [hq', h2]
        exact List.mem_cons_self _ _
      · exact List.mem_append.mpr (Or.inl h2)
    · refine List.mem_append.mpr (Or.inr ?_)
      rw [hq']
      exact List.mem_cons_of_mem _ h1
  | wCrash i t e hpc hx | dCall hpc | dLock hpc hm | dSet hpc | dUnlock hpc
  | dJoin k hpc hw' | dDone k hpc hw' =>
    exact ⟨rfl, rfl, rfl, fun _ h => h⟩
  | call j fn args hpc | cLock j t hpc hm | cPush j t hpc | cUnlock j hpc
  | cNotify j w hpc hw' | cNotifyNone j hpc hw' | store addr v => cases hl
  | dNotify hpc =>
    refine ⟨rfl, rfl, rfl, ?_⟩
    intro t' ht'
    have ht'' : t' ∈ (notify_all s.workers_).flatMap WorkerPc.task ++ s.tasks_ := ht'
    rw [flatMap_task_notify_all] at ht''
    exact ht''

theorem tasksReturn_trans {s s' : State V ρ ε} {l : Label V ρ ε} (h : TasksReturn s)
    (ht : Trans s l s') (hl : l.isPool = true) : TasksReturn s' := by
  obtain ⟨hm, _, _, hsub⟩ := pool_frame ht hl
  intro t hmem
  rw [hm]
  exact h t (hsub t hmem)

/-- While the remaining tasks return normally, no step of the pool's threads ends the process. -/
theorem pool_no_crash {N : Nat} {s s' : State V ρ ε} {l : Label V ρ ε} (h : Inv N s)
    (hr : TasksReturn s) (ht : Trans s l s') (hc : s.crashed = none) : s'.crashed = none := by
  cases ht with
  | wCrash i t e hpc hx =>
    exfalso
    have hmem : t ∈ (WorkerPc.exec t : WorkerPc V ρ ε).task := List.Mem.head _
    have hheld := mem_heldTasks hpc hmem
    obtain ⟨a, v, ha, hv⟩ := hr t (List.mem_append.mpr (Or.inl hheld))
    have hl := held_not_ready h hheld
    simp [PackagedTask.execute, ha, hv, set_value, hl] at hx
  | wLock i hpc hm | wake i hpc | wExit i hpc hq' he' | wWait i hpc hq' he'
  | wExec i t sh hpc hx | wUnlock i t hpc | wPop i t rest hpc hq'
  | dCall hpc | dLock hpc hm | dSet hpc | dUnlock hpc | dNotify hpc
  | dJoin k hpc hw' | dDone k hpc hw'
  | call j fn args hpc | cLock j t hpc hm | cPush j t hpc | cUnlock j hpc
  | cNotify j w hpc hw' | cNotifyNone j hpc hw' | store addr v => exact hc

/-- No deadlock during destruction: until the destructor has returned some thread of the pool
can take a step, without relying on a spurious wakeup. -/
theorem drain_progress {N : Nat} {s : State V ρ ε} (h : Inv N s) (hd : DrainInv s)
    (hc : s.crashed = none) (hr : TasksReturn s) (hne : s.dtor ≠ .done) :
    ∃ l, l.isForced = true ∧ (step s l).isSome = true := by
  have hflag : s.dtor.flagged = true := by rw [← h.exit.flag]; exact hd.flag
  have hworker : ∀ i pc, s.workers_[i]? = some pc → pc.holds = true →
      (step s (.worker i)).isSome = true := by
    intro i pc hpc hh
    cases pc with
    | check =>
      simp only [step, hc, workerStep, hpc]
      split
      · split <;> rfl
      · rfl
    | unlock t => simp [step, hc, workerStep, hpc]
    | lock | wait | exec t | done => simp [WorkerPc.holds] at hh
  cases hm : s.mtx_ with
  | some tid =>
    have ho := h.owner
    unfold OwnerInv at ho
    rw [hm] at ho
    cases tid with
    | worker i =>
      obtain ⟨pc, hpc, hh⟩ := ho
      exact ⟨.worker i, rfl, hworker i pc hpc hh⟩
    | caller j =>
      obtain ⟨pc, hpc, hh⟩ := ho
      rw [hd.quiet j pc hpc] at hh
      cases hh
    | owner =>
      refine ⟨.dtor, rfl, ?_⟩
      have ho' : s.dtor.holds = true := ho
      cases hdt : s.dtor <;> simp [hdt, DtorPc.holds, DtorPc.flagged] at ho' hflag
      simp [step, hc, dtorStep, hdt]
  | none =>
    cases hdt : s.dtor with
    | idle | lock | set => simp [hdt, DtorPc.flagged] at hflag
    | unlock | notify => exact ⟨.dtor, rfl, by simp [step, hc, dtorStep, hdt]⟩
    | done => exact absurd hdt hne
    | join k =>
      cases hk : s.workers_[k]? with
      | none => exact ⟨.dtor, rfl, by simp [step, hc, dtorStep, hdt, hk]⟩
      | some pc =>
        cases pc with
        | done => exact ⟨.dtor, rfl, by simp [step, hc, dtorStep, hdt, hk]⟩
        | lock => exact ⟨.worker k, rfl, by simp [step, hc, workerStep, hk, hm]⟩
        | check =>
          have := (h.mutex.w k _ hk).mp rfl
          rw [hm] at this
          cases this
        | unlock t =>
          have := (h.mutex.w k _ hk).mp rfl
          rw [hm] at this
          cases this
        | wait =>
          have := h.exit.nowait (by rw [hdt]; rfl) _ (List.mem_iff_getElem?.mpr ⟨k, hk⟩)
          cases this
        | exec t =>
          have hmem : t ∈ (WorkerPc.exec t : WorkerPc V ρ ε).task := List.Mem.head _
          obtain ⟨a, v, ha, hv⟩ :=
            hr t (List.mem_append.mpr (Or.inl (mem_heldTasks hk hmem)))
          refine ⟨.worker k, rfl, ?_⟩
          rw [workerStep_exec h hk hc ha hv]
          rfl

theorem isPool_of_isForced {l : Label V ρ ε} (h : l.isForced = true) : l.isPool = true := by
  cases l <;> simp [Label.isForced, Label.isPool] at h ⊢

/-- What a run of the pool's threads preserves. -/
theorem pool_run {N : Nat} {s s' : State V ρ ε} {ls : List (Label V ρ ε)} (h : Inv N s)
    (hd : DrainInv s) (hl : ∀ l ∈ ls, l.isPool = true) (hr : run s ls = some s') :
    Inv N s' ∧ DrainInv s' ∧ s'.pushed = s.pushed := by
  induction ls generalizing s with
  | nil => cases hr; exact ⟨h, hd, rfl⟩
  | cons l ls ih =>
    simp only [run] at hr
    split at hr
    · rename_i s₁ hs
      have ht := (step_trans hs).2
      have hl₁ := hl l (List.mem_cons_self _ _)
      obtain ⟨h1, h2, h3⟩ := ih (inv_trans h ht) (drainInv_trans hd ht hl₁)
        (fun l' hl' => hl l' (List.mem_cons_of_mem _ hl')) hr
      exact ⟨h1, h2, h3.trans (pool_frame ht hl₁).2.1⟩
    · cases hr

/-- While the remaining tasks return normally, a run of the pool's threads uses up the steps
left. -/
theorem pool_run_bound {N : Nat} {s s' : State V ρ ε} {ls : List (Label V ρ ε)} (h : Inv N s)
    (hd : DrainInv s) (hc : s.crashed = none) (htr : TasksReturn s)
    (hl : ∀ l ∈ ls, l.isPool = true) (hr : run s ls = some s') :
    stepsLeft s' + ls.length ≤ stepsLeft s ∧ s'.crashed = none ∧ TasksReturn s' := by
  induction ls generalizing s with
  | nil => cases hr; exact ⟨Nat.le_refl _, hc, htr⟩
  | cons l ls ih =>
    simp only [run] at hr
    split at hr
    · rename_i s₁ hs
      have ht := (step_trans hs).2
      have hl₁ := hl l (List.mem_cons_self _ _)
      have hc₁ := pool_no_crash h htr ht hc
      obtain ⟨h1, h2, h3⟩ := ih (inv_trans h ht) (drainInv_trans hd ht hl₁) hc₁
        (tasksReturn_trans htr ht hl₁) (fun l' hl' => hl l' (List.mem_cons_of_mem _ hl')) hr
      have hlt := stepsLeft_trans ht hl₁ hd.flag hc₁
      refine ⟨?_, h2, h3⟩
      simp only [List.length_cons]
      omega
    · cases hr

/-- While the remaining tasks return normally, the destructor returns under some schedule
of the pool's threads that uses no spurious wakeup. -/
theorem drain_exists {N : Nat} (n : Nat) (s : State V ρ ε) (hn : stepsLeft s ≤ n)
    (h : Inv N s) (hd : DrainInv s) (hc : s.crashed = none) (htr : TasksReturn s) :
    ∃ ls s', (∀ l ∈ ls, l.isForced = true) ∧ run s ls = some s' ∧ s'.dtor = .done := by
  induction n generalizing s with
  | zero =>
    by_cases hdone : s.dtor = .done
    · exact ⟨[], s, fun _ h' => absurd h' (List.not_mem_nil _), rfl, hdone⟩
    · exfalso
      obtain ⟨l, hf, hsome⟩ := drain_progress h hd hc htr hdone
      obtain ⟨s₁, hs⟩ := Option.isSome_iff_exists.mp hsome
      have ht := (step_trans hs).2
      have := stepsLeft_trans ht (isPool_of_isForced hf) hd.flag (pool_no_crash h htr ht hc)
      omega
  | succ n ih =>
    by_cases hdone : s.dtor = .done
    · exact ⟨[], s, fun _ h' => absurd h' (List.not_mem_nil _), rfl, hdone⟩
    · obtain ⟨l, hf, hsome⟩ := drain_progress h hd hc htr hdone
      obtain ⟨s₁, hs⟩ := Option.isSome_iff_exists.mp hsome
      have ht := (step_trans hs).2
      have hp := isPool_of_isForced hf
      have hc₁ := pool_no_crash h htr ht hc
      have hlt := stepsLeft_trans ht hp hd.flag hc₁
      obtain ⟨ls, s', hls, hrun, hfin⟩ := ih s₁ (by omega) (inv_trans h ht)
        (drainInv_trans hd ht hp) hc₁ (tasksReturn_trans htr ht hp)
      refine ⟨l :: ls, s', ?_, ?_, hfin⟩
      · intro l' hl'
        rcases List.mem_cons.mp hl' with rfl | hl''
        · exact hf
        · exact hls l' hl''
      · simp only [run, hs]
        exact hrun

/-- The step of line 99 starts the drain phase. -/
theorem drain_start {N C : Nat} {mem : List V} {s0 s1 : State V ρ ε}
    (hr : Reachable N C mem s0) (hd : s0.dtor = .set) (hs : step s0 .dtor = some s1) :
    s1 = { s0 with exit_ := true, dtor := .unlock } ∧ Inv N s1 ∧ DrainInv s1 ∧
    s1.crashed = none := by
  have hinv := inv_reachable hr
  obtain ⟨hc, ht⟩ := step_trans hs
  have hinv1 := inv_step hinv hs
  cases ht with
  | dCall hpc | dLock hpc hm | dUnlock hpc | dNotify hpc | dJoin k hpc hw | dDone k hpc hw =>
    rw [hd] at hpc
    cases hpc
  | dSet hpc =>
    refine ⟨rfl, hinv1, ⟨rfl, ?_, ?_⟩, hc⟩
    · intro j pc hpc
      have hown : s0.mtx_ = some .owner := hinv.mutex.d.mp (by rw [hd]; rfl)
      have := hinv.mutex.c j pc hpc
      rw [hown] at this
      cases hh : pc.holds with
      | false => rfl
      | true => exact absurd (this.mp hh) (by simp)
    · intro pc hmem hdone
      have he : s0.exit_ = true := hinv.exit.done pc hmem hdone
      have hf := hinv.exit.flag
      rw [he, hd] at hf
      cases hf

/-- C3: let the destructor set the shutdown flag in a reachable state of a pool with
`N ≥ 1` workers whose queue holds `M` tasks.  In every run of the workers and the destructor
from there: a worker returns from its loop only by a step taken with the flag set and the
queue empty; when the destructor has returned every worker has returned; and when every
worker has returned the queue is empty, no worker owns a task, and the executed tasks are
exactly the submitted ones, the `M` queued ones among them.  If the remaining tasks return
normally, every such run is at most `stepsLeft` steps long, can be continued by a step of
a worker or the destructor until the destructor has returned, and some run makes it
return. -/
theorem C3_shutdown_drains (N C M : Nat) (mem : List V) (s0 s1 : State V ρ ε) (hN : 1 ≤ N)
    (hr : Reachable N C mem s0) (hd : s0.dtor = .set) (hM : s0.tasks_.length = M)
    (hs : step s0 .dtor = some s1) :
    s1.exit_ = true ∧ s1.tasks_.length = M ∧
    (∀ ls s', (∀ l ∈ ls, l.isPool = true) → run s1 ls = some s' →
      (∀ (i : Nat) (s'' : State V ρ ε), s'.workers_[i]? ≠ some .done →
        step s' (.worker i) = some s'' → s''.workers_[i]? = some .done →
        s'.exit_ = true ∧ s'.tasks_ = []) ∧
      (s'.dtor = .done → ∀ pc ∈ s'.workers_, pc.isDone = true) ∧
      ((∀ pc ∈ s'.workers_, pc.isDone = true) →
        s'.tasks_ = [] ∧ heldTasks s' = [] ∧
        (s'.executed.map Prod.fst).Perm s0.pushed ∧
        ∀ t ∈ s0.tasks_, t ∈ s'.executed.map Prod.fst)) ∧
    (TasksReturn s1 →
      (∀ ls s', (∀ l ∈ ls, l.isPool = true) → run s1 ls = some s' →
        ls.length ≤ stepsLeft s1 ∧
        (s'.dtor ≠ .done → ∃ l, l.isForced = true ∧ (step s' l).isSome = true)) ∧
      ∃ ls s', (∀ l ∈ ls, l.isForced = true) ∧ run s1 ls = some s' ∧ s'.dtor = .done) := by
  obtain ⟨hs1, hinv1, hdr1, hc1⟩ := drain_start hr hd hs
  have hinv0 := inv_reachable hr
  refine ⟨hdr1.flag, ?_, ?_, ?_⟩
  · rw [hs1]; exact hM
  · intro ls s' hls hrun
    obtain ⟨hinv, hdr, hpush⟩ := pool_run hinv1 hdr1 hls hrun
    have hpush0 : s'.pushed = s0.pushed := by rw [hpush, hs1]
    refine ⟨?_, ?_, ?_⟩
    · intro i s'' hnd hstep hdone
      have ht := (step_trans hstep).2
      cases ht with
      | wExit i hpc hq he => exact ⟨he, hq⟩
      | wLock i hpc hm | wWait i hpc hq he | wPop i t rest hpc hq | wUnlock i t hpc
      | wExec i t sh hpc hx =>
        exfalso
        have hlt := (List.getElem?_eq_some.mp hpc).1
        simp [List.getElem?_set, hlt] at hdone
      | wCrash i t e hpc hx => exact absurd hdone hnd
    · intro hdone pc hmem
      obtain ⟨i, hi⟩ := List.mem_iff_getElem?.mp hmem
      exact hinv.join.all hdone i pc hi
    · intro hall
      have hpos : 0 < s'.workers_.length := by rw [hinv.size]; exact hN
      have hq : s'.tasks_ = [] :=
        hdr.drained (s'.workers_.get ⟨0, hpos⟩) (List.get_mem _ _ _)
          (hall _ (List.get_mem _ _ _))
      have hheld : heldTasks s' = [] := by
        unfold heldTasks
        rw [List.flatMap_eq_nil_iff]
        intro pc hmem
        have := hall pc hmem
        cases pc <;> simp [WorkerPc.isDone] at this
        rfl
      have hperm : (s'.executed.map Prod.fst).Perm s0.pushed := by
        have := tasks_perm hinv
        rw [hq, hheld, List.append_nil, List.append_nil, hpush0] at this
        exact this
      refine ⟨hq, hheld, hperm, ?_⟩
      intro t ht
      refine hperm.mem_iff.mpr ?_
      rw [← hinv0.queue.fifo]
      exact List.mem_append.mpr (Or.inr ht)
  · intro htr
    refine ⟨?_, drain_exists (stepsLeft s1) s1 (Nat.le_refl _) hinv1 hdr1 hc1 htr⟩
    intro ls s' hls hrun
    obtain ⟨hinv, hdr, _⟩ := pool_run hinv1 hdr1 hls hrun
    obtain ⟨hb, hc, htr'⟩ := pool_run_bound hinv1 hdr1 hc1 htr hls hrun
    refine ⟨by omega, ?_⟩
    intro hne
    exact drain_progress hinv hdr hc htr' hne

/-- C3 at a pool of two workers destroyed with two tasks queued: under the schedule
`drainRun` the destructor returns, the queue is empty, both tasks have been executed and
their futures hold 16 and 42. -/
theorem C3_shutdown_drains_witness :
    1 ≤ 2 ∧ Reachable 2 1 [] drainState ∧ drainState.dtor = .set ∧
    drainState.tasks_.length = 2 ∧ step drainState .dtor = some drainState' ∧
    run drainState' drainRun = some drainedState ∧ drainedState.dtor = .done ∧
    drainedState.tasks_ = [] ∧ heldTasks drainedState = [] ∧
    (drainedState.executed.map Prod.fst).Perm drainState.pushed ∧
    (drainedState.executed.map Prod.fst).map PackagedTask.prom_ = [0, 1] ∧
    future_get drainedState.shared 0 = some (.value 16) ∧
    future_get drainedState.shared 1 = some (.value 42) := by
  have hr : Reachable 2 1 [] drainState :=
    reachable_run Reachable.init (rfl : run (init 2 1 []) drainSchedule = some drainState)
  have h := C3_shutdown_drains 2 1 2 [] drainState drainState' (by decide) hr rfl rfl rfl
  have hrun : run drainState' drainRun = some drainedState := rfl
  have h1 := h.2.2.1 drainRun drainedState (by decide) hrun
  have h2 := h1.2.2 (h1.2.1 rfl)
  exact ⟨by decide, hr, rfl, rfl, rfl, hrun, rfl, h2.1, h2.2.1, h2.2.2.1, rfl, rfl, rfl⟩

end ThreadPool
